import Mathlib

/-!
Verification of the BZ Reminders Extractor core (frame extraction, layout
parsing, cross-frame deduplication) against its natural-language specification.

Shallow embedding conventions:
* Python floats are modeled as exact rationals (`ℚ`); all quantities involved
  are ratios of small integers, so the float rounding of the source is
  abstracted away.
* Python strings are modeled as Lean `String`s; `str.strip`, `str.split`,
  `str.lower`, and the regular-expression character classes `\d`, `\w`, `\s`
  are modeled over their ASCII meaning (all inputs of interest are ASCII).
* Fallible Python code (`int(...)` raising `ValueError`, `list[i]` raising
  `IndexError`) is modeled with `Option`.
* `numpy` frames are rectangular matrices `List (List ℕ)` of 8-bit gray
  values; `cv2` color-to-gray conversion is external and frames are taken as
  already grayscale.
-/

set_option maxRecDepth 40000

set_option allowUnsafeReducibility true in
attribute [semireducible] Rat.add Rat.mul Rat.sub Rat.inv Rat.ofScientific

/-! ## Python string primitives -/

/-- Python whitespace (`str.isspace` / regex `\s`), ASCII fragment: space,
tab, newline, carriage return, vertical tab, form feed. -/
def pyIsSpace (c : Char) : Bool :=
  c.toNat = 32 || c.toNat = 9 || c.toNat = 10 || c.toNat = 13 ||
    c.toNat = 11 || c.toNat = 12

/-- Regex `\d` (ASCII): code points of `0`..`9`. -/
def pyIsDigit (c : Char) : Bool := 48 ≤ c.toNat && c.toNat ≤ 57

/-- Regex `\w` (ASCII): letters, digits, underscore. -/
def pyIsWord (c : Char) : Bool := c.isAlphanum || c = '_'

/-- Python `str.lower`, ASCII fragment. -/
def pyLowerChar (c : Char) : Char := c.toLower

/-- Python `str.strip()` on a character list. -/
def pyStripChars (l : List Char) : List Char :=
  ((l.dropWhile pyIsSpace).reverse.dropWhile pyIsSpace).reverse

/-- Python `str.strip()`. -/
def pyStrip (s : String) : String := String.mk (pyStripChars s.data)

/-- Python `str.lower()`. -/
def pyLower (s : String) : String := String.mk (s.data.map pyLowerChar)

/-- Core of `re.sub(r"\s+", " ", ·)`: each maximal whitespace run becomes one
space. The flag records whether the previous character was whitespace. -/
def collapseChars : Bool → List Char → List Char
  | _, [] => []
  | inWs, c :: rest =>
    if pyIsSpace c then
      if inWs then collapseChars true rest else ' ' :: collapseChars true rest
    else c :: collapseChars false rest

/-- `re.sub(r"\s+", " ", s)`. -/
def collapseWs (s : String) : String := String.mk (collapseChars false s.data)

/-- Python `str.split()` (no argument): maximal non-whitespace tokens, no
empties. The accumulator holds the current token reversed. -/
def pySplitGo : List Char → List Char → List String
  | acc, [] => if acc.isEmpty then [] else [String.mk acc.reverse]
  | acc, c :: rest =>
    if pyIsSpace c then
      if acc.isEmpty then pySplitGo [] rest
      else String.mk acc.reverse :: pySplitGo [] rest
    else pySplitGo (c :: acc) rest

/-- Python `str.split()`. -/
def pySplit (s : String) : List String := pySplitGo [] s.data

/-- Python `str.split(sep)` for a one-character separator, on lists. -/
def splitOnCharList (sep : Char) : List Char → List (List Char)
  | [] => [[]]
  | c :: rest =>
    match splitOnCharList sep rest with
    | [] => [[c]]
    | h :: t => if c = sep then [] :: h :: t else (c :: h) :: t

/-- Python `str.split(sep)` for a one-character separator. -/
def splitOnChar (sep : Char) (s : String) : List String :=
  (splitOnCharList sep s.data).map String.mk

/-- Digit-string core of Python `int(s)`: a nonempty all-digit string and
its value. -/
def pyIntCore (ds : List Char) : Option ℕ :=
  if ds.isEmpty || !(ds.all pyIsDigit) then none
  else some (ds.foldl (fun acc c => 10 * acc + (c.toNat - 48)) 0)

/-- Python `int(s)`: strip, optional sign, then a nonempty digit string
(PEP-515 underscore grouping is not modeled; the callers below only pass
plain digit strings). `none` models `ValueError`. -/
def pyInt (s : String) : Option ℤ :=
  match pyStripChars s.data with
  | c :: rest =>
    if c = '+' then (pyIntCore rest).map Int.ofNat
    else if c = '-' then (pyIntCore rest).map (fun n => -(n : ℤ))
    else (pyIntCore (c :: rest)).map Int.ofNat
  | [] => none

/-- Decimal digits of a natural number (fuel-driven so that it reduces in the
kernel; fuel `n+1` always suffices). -/
def natDigitsGo : ℕ → ℕ → List Char
  | 0, _ => []
  | _, 0 => []
  | fuel + 1, n => natDigitsGo fuel (n / 10) ++ [Char.ofNat ('0'.toNat + n % 10)]

/-- Decimal representation of a natural number, as Python `str(n)`. -/
def natRepr (n : ℕ) : List Char :=
  if n = 0 then ['0'] else natDigitsGo (n + 1) n

/-- Python `f"{n:02d}"`: decimal representation left-padded with zeros to
width 2 (the sign, when present, counts toward the width). -/
def format02d (n : ℤ) : String :=
  if n < 0 then
    let ds := natRepr n.natAbs
    String.mk ('-' :: List.replicate (1 - ds.length) '0' ++ ds)
  else
    let ds := natRepr n.toNat
    String.mk (List.replicate (2 - ds.length) '0' ++ ds)

/-- Python string comparison `s < t`: lexicographic on code points. -/
def pyStrLtChars : List Char → List Char → Bool
  | [], [] => false
  | [], _ :: _ => true
  | _ :: _, [] => false
  | a :: as_, b :: bs =>
    if a.toNat < b.toNat then true
    else if b.toNat < a.toNat then false
    else pyStrLtChars as_ bs

/-- Python string comparison `s <= t`. -/
def pyStrLe (s t : String) : Bool := !(pyStrLtChars t.data s.data)

/-- Truncation toward zero, as Python `int(x)` on a float. -/
def pyTrunc (q : ℚ) : ℤ := q.num.tdiv (q.den : ℤ)

/-- Boolean chain: `chainB p a l` states that `p` holds between every pair of
adjacent elements of `a :: l`. -/
def chainB (p : α → α → Bool) : α → List α → Bool
  | _, [] => true
  | a, b :: rest => p a b && chainB p b rest

/-- Boolean chain over a whole list (adjacent pairs). -/
def listChainB (p : α → α → Bool) : List α → Bool
  | [] => true
  | a :: rest => chainB p a rest

/-! ## Configuration (`config.py`) -/

def STABILITY_THRESHOLD : ℚ := 2.0
def STABILITY_WINDOW : ℕ := 10
def STABILITY_SKIP_FRAMES : ℕ := 3
def COMPARE_CROP_TOP : ℚ := 0.10
def COMPARE_CROP_BOTTOM : ℚ := 0.05
def CONTENT_Y_TOP : ℚ := 0.12
def CONTENT_Y_BOTTOM : ℚ := 0.88
def ROW_Y_TOLERANCE : ℕ := 60
def DEFAULT_INITIAL_DATE : String := "Thursday 13 Feb"
def REPEAT_ICON_X_THRESHOLD : ℚ := 0.88
def REPEAT_ICON_MAX_CONFIDENCE : ℚ := 0.80
def REPEAT_ICON_MAX_TEXT_LEN : ℕ := 3
def REPEAT_ICON_RIGHT_MARGIN : ℚ := 0.12
def REPEAT_ICON_BRIGHTNESS_THRESHOLD : ℕ := 100
def REPEAT_ICON_MIN_BRIGHT_PIXELS : ℕ := 15
def DEDUP_SIMILARITY_THRESHOLD : ℚ := 0.85

/-! ## Frame extraction (`frame_extractor.py`) -/

/-- A decoded video frame: rectangular matrix of 8-bit gray values. -/
abbrev Frame := List (List ℕ)

/-- `_crop_compare_region`: drop the top `COMPARE_CROP_TOP` and bottom
`COMPARE_CROP_BOTTOM` fractions of the rows (`frame[top:bottom]`). -/
def cropCompareRegion (frame : Frame) : Frame :=
  let h := List.length frame
  let top := (pyTrunc ((h : ℚ) * COMPARE_CROP_TOP)).toNat
  let bottom := (pyTrunc ((h : ℚ) * (1 - COMPARE_CROP_BOTTOM))).toNat
  (List.drop top frame).take (bottom - top)

/-- Sum of elementwise absolute differences of two frames (equal shapes in a
video; `zip` truncates otherwise). -/
def frameAbsDiffSum (a b : Frame) : ℕ :=
  ((List.zip a b).map
    (fun rc => ((rc.1.zip rc.2).map (fun p => ((p.1 : ℤ) - p.2).natAbs)).sum)).sum

/-- Number of compared pixels. -/
def framePixelCount (a b : Frame) : ℕ :=
  ((List.zip a b).map (fun rc => (rc.1.zip rc.2).length)).sum

/-- `np.mean(np.abs(a - b)) < STABILITY_THRESHOLD`. On an empty region
`np.mean` is NaN and the comparison is false, hence the guard. -/
def diffBelow (a b : Frame) : Bool :=
  let n := framePixelCount a b
  n ≠ 0 && ((frameAbsDiffSum a b : ℚ) / (n : ℚ) < STABILITY_THRESHOLD)

/-- Stability of an adjacent pair of (uncropped) frames, as computed by the
main loop: compare the cropped regions. -/
def stablePair (x y : Frame) : Bool :=
  diffBelow (cropCompareRegion x) (cropCompareRegion y)

/-- `_capture_from_stable`: pick a representative from the middle of a stable
buffer, skipping `STABILITY_SKIP_FRAMES` at each end when long enough. The
result is the picked `(frame_idx, frame)` pair (saving the PNG and its path
are I/O, abstracted away); `none` models the `IndexError` on an empty buffer,
which no caller reaches. -/
def captureFromStable (buffer : List (ℕ × Frame)) : Option (ℕ × Frame) :=
  let skip := STABILITY_SKIP_FRAMES
  let pick :=
    if buffer.length ≤ 2 * skip then buffer.length / 2
    else
      let usable := (buffer.drop skip).take (buffer.length - skip - skip)
      skip + usable.length / 2
  buffer[pick]?

/-- Loop state of `extract_frames`. The source's `captured` flag is kept for
fidelity although the loop never sets it to `True`. -/
structure ExtractState where
  prevCropped : Option Frame
  stableCount : ℕ
  stableStartIdx : ℕ
  captured : Bool
  savedFrames : List (ℕ × Frame)
  frameBuffer : List (ℕ × Frame)
  frameIdx : ℕ
  deriving DecidableEq

/-- One iteration of the `while` loop of `extract_frames` on a decoded frame. -/
def extractStep (st : ExtractState) (frame : Frame) : ExtractState :=
  let cropped := cropCompareRegion frame
  match st.prevCropped with
  | some prev =>
    if diffBelow prev cropped then
      if st.stableCount = 0 then
        { st with
          stableCount := 1
          stableStartIdx := st.frameIdx - 1
          frameBuffer := [(st.frameIdx, frame)]
          prevCropped := some cropped
          frameIdx := st.frameIdx + 1 }
      else
        { st with
          stableCount := st.stableCount + 1
          frameBuffer := st.frameBuffer ++ [(st.frameIdx, frame)]
          prevCropped := some cropped
          frameIdx := st.frameIdx + 1 }
    else
      { st with
        savedFrames := st.savedFrames ++
          (if STABILITY_WINDOW ≤ st.stableCount ∧ st.captured = false
           then (captureFromStable st.frameBuffer).toList else [])
        stableCount := 0
        captured := false
        frameBuffer := []
        prevCropped := some cropped
        frameIdx := st.frameIdx + 1 }
  | none =>
    { st with
      frameBuffer := st.frameBuffer ++ [(st.frameIdx, frame)]
      prevCropped := some cropped
      frameIdx := st.frameIdx + 1 }

/-- Initial state of the extraction loop. -/
def extractInit : ExtractState :=
  { prevCropped := none, stableCount := 0, stableStartIdx := 0,
    captured := false, savedFrames := [], frameBuffer := [], frameIdx := 0 }

/-- `extract_frames`: the whole loop plus the final-stable-period flush.
Returns the captured `(frame_idx, frame)` pairs in order. -/
def extractFrames (frames : List Frame) : List (ℕ × Frame) :=
  let st := frames.foldl extractStep extractInit
  st.savedFrames ++
    (if STABILITY_WINDOW ≤ st.stableCount ∧ st.captured = false
     then (captureFromStable st.frameBuffer).toList else [])

/-- Modelled from the spec (§4.1), for comparison with `captureFromStable`:
"discard `edge_skip` frames from each end and pick the temporal midpoint of
the remaining frames as the representative — if fewer than `2*edge_skip+1`
frames remain after trimming, fall back to the midpoint of the untrimmed
period." -/
def specRepresentative (buffer : List (ℕ × Frame)) : Option (ℕ × Frame) :=
  let skip := STABILITY_SKIP_FRAMES
  let trimmed := (buffer.drop skip).take (buffer.length - 2 * skip)
  if trimmed.length < 2 * skip + 1 then buffer[buffer.length / 2]?
  else trimmed[trimmed.length / 2]?

/-- C7: for every stable-period buffer, the representative picked by
`_capture_from_stable` is exactly the one the spec describes: the temporal
midpoint of the buffer trimmed by `edge_skip` at each end, falling back to
the midpoint of the untrimmed buffer whenever fewer than `2*edge_skip + 1`
frames remain after trimming. -/
theorem captureFromStable_eq_specRepresentative (buffer : List (ℕ × Frame)) :
    captureFromStable buffer = specRepresentative buffer := by
  simp only [captureFromStable, specRepresentative, STABILITY_SKIP_FRAMES]
  have hlen : (List.take (buffer.length - 2 * 3) (List.drop 3 buffer)).length
      = buffer.length - 2 * 3 := by
    simp only [List.length_take, List.length_drop]
    omega
  have hlen2 : (List.take (buffer.length - 3 - 3) (List.drop 3 buffer)).length
      = buffer.length - 2 * 3 := by
    simp only [List.length_take, List.length_drop]
    omega
  rw [hlen, hlen2]
  by_cases h1 : buffer.length ≤ 2 * 3
  · rw [if_pos h1, if_pos (by omega)]
  · rw [if_neg h1]
    by_cases h2 : buffer.length - 2 * 3 < 2 * 3 + 1
    · rw [if_pos h2]
      congr 1
      omega
    · rw [if_neg h2, List.getElem?_take, if_pos (by omega), List.getElem?_drop]

/-! ## difflib.SequenceMatcher (used by `_sequence_similarity` in `dedup.py`)

The embedding follows CPython's difflib with `isjunk=None`: `b2j` occurrence
table with autojunk, the `find_longest_match` dynamic program with its
extension loops, and the divide-and-conquer of `get_matching_blocks` (a LIFO
queue). `ratio()` only needs the total matched size, so the final
sort-and-merge of the blocks, which preserves that sum, is omitted. -/

/-- difflib `b2j` (isjunk=None, autojunk=True): positions of each element of
`b`, ascending; when `200 ≤ len(b)`, elements occurring more than
`len(b)/100 + 1` times are "popular" and dropped from the table. -/
def smB2j (b : List Char) (c : Char) : List ℕ :=
  let idxs := (b.enum.filter (fun p => p.2 = c)).map (·.1)
  if 200 ≤ b.length ∧ b.length / 100 + 1 < idxs.length then [] else idxs

/-- Inner loop of `find_longest_match` over the occurrence list of `a[i]`,
threading `newj2len` and the running best `(besti, bestj, bestsize)`.
Python's `j2len.get(j-1, 0)` at `j = 0` reads key `-1`, hence the guard. -/
def smRow (blo bhi i : ℕ) (j2len : ℕ → ℕ) :
    List ℕ → (ℕ → ℕ) → (ℕ × ℕ × ℕ) → ((ℕ → ℕ) × (ℕ × ℕ × ℕ))
  | [], newj, best => (newj, best)
  | j :: js, newj, best =>
    if j < blo then smRow blo bhi i j2len js newj best
    else if bhi ≤ j then (newj, best)
    else
      let k := (if j = 0 then 0 else j2len (j - 1)) + 1
      let newj' := fun j' => if j' = j then k else newj j'
      let best' := if best.2.2 < k then (i + 1 - k, j + 1 - k, k) else best
      smRow blo bhi i j2len js newj' best'

/-- Outer `i` loop of `find_longest_match` (the dynamic-programming rows),
over the slice `a[alo:ahi]` with `i` starting at `alo`. -/
def smRows (bj : Char → List ℕ) (blo bhi : ℕ) :
    List Char → ℕ → (ℕ → ℕ) → (ℕ × ℕ × ℕ) → (ℕ × ℕ × ℕ)
  | [], _, _, best => best
  | c :: cs, i, j2len, best =>
    let r := smRow blo bhi i j2len (bj c) (fun _ => 0) best
    smRows bj blo bhi cs (i + 1) r.1 r.2

/-- Backward extension `while` loop of `find_longest_match`. With
`isjunk=None` the junk set is empty, so only the non-junk loops can act.
Fuel-driven so that it reduces in the kernel; called with fuel `i`, which
bounds the number of steps. -/
def smExtBack (a b : List Char) (alo blo : ℕ) : ℕ → ℕ → ℕ → ℕ
  | 0, _, _ => 0
  | fuel + 1, i, j =>
    if alo < i ∧ blo < j ∧ (a.get? (i - 1)).isSome ∧ a.get? (i - 1) = b.get? (j - 1)
    then 1 + smExtBack a b alo blo fuel (i - 1) (j - 1) else 0

/-- Forward extension `while` loop of `find_longest_match`. -/
def smExtFwd (a b : List Char) (ahi bhi : ℕ) : ℕ → ℕ → ℕ → ℕ
  | 0, _, _ => 0
  | fuel + 1, i, j =>
    if i < ahi ∧ j < bhi ∧ (a.get? i).isSome ∧ a.get? i = b.get? j
    then 1 + smExtFwd a b ahi bhi fuel (i + 1) (j + 1) else 0

/-- difflib `find_longest_match(alo, ahi, blo, bhi)` with `isjunk=None`. -/
def smFindLongestMatch (a b : List Char) (bj : Char → List ℕ)
    (alo ahi blo bhi : ℕ) : ℕ × ℕ × ℕ :=
  let r := smRows bj blo bhi ((a.drop alo).take (ahi - alo)) alo (fun _ => 0) (alo, blo, 0)
  let back := smExtBack a b alo blo r.1 r.1 r.2.1
  let besti := r.1 - back
  let bestj := r.2.1 - back
  let bestsize := r.2.2 + back
  let fwd := smExtFwd a b ahi bhi (ahi - (besti + bestsize))
    (besti + bestsize) (bestj + bestsize)
  (besti, bestj, bestsize + fwd)

/-- Total matched size over `get_matching_blocks`' divide-and-conquer queue
(LIFO, as in difflib: the upper sub-interval, pushed last, is popped first).
Fuel `len(a)+len(b)+1` bounds the number of pops. -/
def smTotal (a b : List Char) (bj : Char → List ℕ) : ℕ → List (ℕ × ℕ × ℕ × ℕ) → ℕ
  | 0, _ => 0
  | _, [] => 0
  | fuel + 1, (alo, ahi, blo, bhi) :: queue =>
    let r := smFindLongestMatch a b bj alo ahi blo bhi
    let i := r.1
    let j := r.2.1
    let k := r.2.2
    if k = 0 then smTotal a b bj fuel queue
    else
      k + smTotal a b bj fuel
        ((if i + k < ahi ∧ j + k < bhi then [(i + k, ahi, j + k, bhi)] else []) ++
         (if alo < i ∧ blo < j then [(alo, i, blo, j)] else []) ++ queue)

/-- `SequenceMatcher(None, a, b).ratio()` = `2*M/(len(a)+len(b))`, and `1.0`
for two empty sequences (`_calculate_ratio`). -/
def smRatio (a b : List Char) : ℚ :=
  let la := a.length
  let lb := b.length
  if la + lb = 0 then 1
  else 2 * (smTotal a b (smB2j b) (la + lb + 1) [(0, la, 0, lb)] : ℚ) / ((la : ℚ) + lb)

/-! ## Deduplication (`dedup.py`) -/

/-- A parsed reminder (`parser.Reminder`). -/
structure Reminder where
  date : String
  time : String
  text : String
  repeats : Bool
  confidence : ℚ
  deriving DecidableEq

/-- `_normalize_text`: lowercase, strip, collapse whitespace runs. -/
def normalizeText (text : String) : String :=
  collapseWs (pyStrip (pyLower text))

/-- Word set of a normalized text, as Python `set(str.split())`. -/
def wordSet (t : String) : Finset String := (pySplit (normalizeText t)).toFinset

/-- `_word_set_similarity`: Jaccard similarity of the word sets. -/
def wordSetSimilarity (a b : String) : ℚ :=
  let wordsA := wordSet a
  let wordsB := wordSet b
  if wordsA = ∅ ∧ wordsB = ∅ then 1
  else if wordsA = ∅ ∨ wordsB = ∅ then 0
  else ((wordsA ∩ wordsB).card : ℚ) / ((wordsA ∪ wordsB).card : ℚ)

/-- `_sequence_similarity`: SequenceMatcher ratio of the normalized texts. -/
def sequenceSimilarity (a b : String) : ℚ :=
  smRatio (normalizeText a).data (normalizeText b).data

/-- `_text_similarity`: max of word-set and sequence similarity. -/
def textSimilarity (a b : String) : ℚ :=
  max (wordSetSimilarity a b) (sequenceSimilarity a b)

/-- Search for `(\d{1,2})\s+(\w{3})` (the day-number / month key used by
`_date_matches`): at each position, greedily try two digits then one, then at
least one whitespace (maximal run; `\s` and `\w` are disjoint so no other
backtracking can occur), then exactly three word characters. Returns the two
groups of the leftmost match. -/
def findDayMonth : List Char → Option (List Char × List Char)
  | [] => none
  | c :: rest =>
    let tail3 : List Char → List Char → Option (List Char × List Char) := fun g1 r =>
      let ws := r.takeWhile pyIsSpace
      let r' := r.dropWhile pyIsSpace
      match ws, r' with
      | [], _ => none
      | _ :: _, w1 :: w2 :: w3 :: _ =>
        if pyIsWord w1 && pyIsWord w2 && pyIsWord w3 then some (g1, [w1, w2, w3]) else none
      | _ :: _, _ => none
    let try2 : Option (List Char × List Char) :=
      match rest with
      | c2 :: r2 => if pyIsDigit c && pyIsDigit c2 then tail3 [c, c2] r2 else none
      | [] => none
    let try1 : Option (List Char × List Char) :=
      if pyIsDigit c then tail3 [c] rest else none
    (try2 <|> try1) <|> findDayMonth rest

/-- `_date_matches`: verbatim equality, else compare day-number and
lowercased three-letter month keys when both parse, else fall back to
sequence similarity against the dedup threshold. -/
def dateMatches (a b : String) : Bool :=
  if a = b then true
  else
    match findDayMonth a.data, findDayMonth b.data with
    | some (da, ma), some (db, mb) =>
      da = db && ma.map pyLowerChar = mb.map pyLowerChar
    | _, _ => decide (DEDUP_SIMILARITY_THRESHOLD ≤ sequenceSimilarity a b)

/-- `_reminders_match`: same date (fuzzily), exactly equal time, text
similarity at least the dedup threshold. -/
def remindersMatch (a b : Reminder) : Bool :=
  dateMatches a.date b.date && a.time == b.time &&
    decide (DEDUP_SIMILARITY_THRESHOLD ≤ textSimilarity a.text b.text)

/-- `_is_substring_match`: same date (fuzzily), exactly equal time, and at
least 80% of the shorter text's words appear in the longer text's word set. -/
def isSubstringMatch (a b : Reminder) : Bool :=
  if !dateMatches a.date b.date then false
  else if a.time ≠ b.time then false
  else
    let sl := if a.text.length ≤ b.text.length then (a.text, b.text) else (b.text, a.text)
    if sl.1 = "" then false
    else
      let shortWords := (pySplit (normalizeText sl.1)).toFinset
      let longWords := (pySplit (normalizeText sl.2)).toFinset
      if shortWords = ∅ then false
      else decide ((0.8 : ℚ) ≤ ((shortWords ∩ longWords).card : ℚ) / (shortWords.card : ℚ))

/-- The inner scan of `deduplicate` over the merged list for one incoming
reminder `r`: at the first entry where the identity rule fires, replace the
entry by `r` when `r` has strictly higher confidence (absorbing the repeats
flag), else keep the entry with the repeats flag absorbed; at the first entry
where (the identity rule fails and) the substring rule fires, absorb the
repeats flag and replace text/confidence when `r`'s text is strictly shorter
and its confidence is at least 0.8 of the entry's; else recurse, appending
`r` when no entry matches. -/
def dedupInsert : List Reminder → Reminder → List Reminder
  | [], r => [r]
  | e :: rest, r =>
    if remindersMatch e r then
      (if e.confidence < r.confidence then
        { r with repeats := e.repeats || r.repeats }
      else
        { e with repeats := e.repeats || r.repeats }) :: rest
    else if isSubstringMatch e r then
      (let e1 : Reminder := { e with repeats := e.repeats || r.repeats }
       if r.text.length < e.text.length ∧ e.confidence * 0.8 ≤ r.confidence then
         { e1 with text := r.text, confidence := r.confidence }
       else e1) :: rest
    else e :: dedupInsert rest r

/-- The merging phase of `deduplicate`: frames in order, reminders within a
frame in order, empty-text reminders skipped. -/
def dedupMerged (perFrame : List (List Reminder)) : List Reminder :=
  perFrame.foldl
    (fun merged frame =>
      frame.foldl (fun m r => if r.text = "" then m else dedupInsert m r) merged)
    []

/-- First-encounter order of the date labels of the merged list (the
`date_order` dict of `deduplicate`). -/
def dateFirstSeen (merged : List Reminder) : List String :=
  merged.foldl (fun acc r => if r.date ∈ acc then acc else acc ++ [r.date]) []

/-- `date_order.get(date, 999)`. -/
def dateOrderIdx (ds : List String) (d : String) : ℕ :=
  if d ∈ ds then ds.indexOf d else 999

/-- The sort key comparison of `deduplicate`: Python tuple order on
`(date_order.get(date, 999), time)` with code-point string comparison. -/
def dedupKeyLe (ds : List String) (a b : Reminder) : Bool :=
  dateOrderIdx ds a.date < dateOrderIdx ds b.date ||
    (dateOrderIdx ds a.date == dateOrderIdx ds b.date && pyStrLe a.time b.time)

/-- `deduplicate`: merge all frames, then stable-sort by (first-encounter
order of the date label, then time). Python's stable `list.sort` is modeled
by the stable `List.insertionSort`. -/
def deduplicate (perFrame : List (List Reminder)) : List Reminder :=
  let merged := dedupMerged perFrame
  let ds := dateFirstSeen merged
  List.insertionSort (fun a b => dedupKeyLe ds a b = true) merged

/-! ## Layout parsing (`parser.py`, with `OCRBox` from `ocr_processor.py`) -/

/-- A single OCR detection with spatial info (`ocr_processor.OCRBox`). -/
structure OCRBox where
  text : String
  confidence : ℚ
  xMin : ℤ
  yMin : ℤ
  xMax : ℤ
  yMax : ℤ
  deriving DecidableEq

/-- Derived property `y_center = (y_min + y_max) / 2`. -/
def OCRBox.yCenter (b : OCRBox) : ℚ := ((b.yMin : ℚ) + (b.yMax : ℚ)) / 2

/-- Derived property `x_center = (x_min + x_max) / 2`. -/
def OCRBox.xCenter (b : OCRBox) : ℚ := ((b.xMin : ℚ) + (b.xMax : ℚ)) / 2

/-- `_normalize_time`: strip, replace `.` with `:`, and when the result has
exactly two `:`-separated parts, zero-pad the hour with `int(...)` and
`{:02d}`. `none` models the `ValueError` of `int` on a non-numeric hour; in
`parse_frame` the argument always comes from `_extract_time_prefix`, whose
results make `int` succeed. -/
def normalizeTime (timeStr : String) : Option String :=
  let t := String.mk ((pyStrip timeStr).data.map (fun c => if c = '.' then ':' else c))
  let parts := splitOnChar ':' t
  if parts.length = 2 then
    match pyInt (parts.getD 0 "") with
    | some n => some (format02d n ++ ":" ++ parts.getD 1 "")
    | none => none
  else some t

/-- Leading-time match `^(\d{1,2}[:.]\d{2})\s+(.*)` at the start of a
stripped text: greedily one or two hour digits, a `:` or `.`, two minute
digits, at least one whitespace character (maximal run), then the rest of the
line up to the first newline (`.` does not match `\n`). Greedy `\d{1,2}`
backtracks from two digits to one. -/
def timeTail2 (g1 r : List Char) : Option (List Char × List Char) :=
  match r with
  | sep :: m1 :: m2 :: rest =>
    if (sep = ':' || sep = '.') && pyIsDigit m1 && pyIsDigit m2 then
      if (rest.takeWhile pyIsSpace).isEmpty then none
      else some (g1 ++ [sep, m1, m2], (rest.dropWhile pyIsSpace).takeWhile (· ≠ '\n'))
    else none
  | _ => none

/-- Entry of the leading-time match (see `timeTail2` for the suffix after the
hour digits). -/
def timeMatchAt (l : List Char) : Option (List Char × List Char) :=
  match l with
  | d1 :: d2 :: rest =>
    if pyIsDigit d1 then
      if pyIsDigit d2 then
        match timeTail2 [d1, d2] rest with
        | some x => some x
        | none => timeTail2 [d1] (d2 :: rest)
      else timeTail2 [d1] (d2 :: rest)
    else none
  | [d1] => if pyIsDigit d1 then timeTail2 [d1] [] else none
  | [] => none

/-- `re.fullmatch(TIME_PATTERN, t)` with `TIME_PATTERN = \d{1,2}[:.]\d{2}`. -/
def timeFullmatch (l : List Char) : Bool :=
  match l with
  | [d1, sep, m1, m2] =>
    pyIsDigit d1 && (sep = ':' || sep = '.') && pyIsDigit m1 && pyIsDigit m2
  | [d1, d2, sep, m1, m2] =>
    pyIsDigit d1 && pyIsDigit d2 && (sep = ':' || sep = '.') && pyIsDigit m1 && pyIsDigit m2
  | _ => false

/-- `_extract_time_prefix`: a leading time plus remainder, or a standalone
time with an empty remainder, or `none`. -/
def extractTimeToken (text : String) : Option (String × String) :=
  let t := pyStrip text
  match timeMatchAt t.data with
  | some (g1, g2) => some (String.mk g1, String.mk g2)
  | none => if timeFullmatch t.data then some (t, "") else none

/-- One weekday-name alternative of a date pattern, case-insensitively, as a
prefix; returns the remainder. At most one alternative of each pattern can
match, so the regex alternation needs no backtracking. -/
def matchAltCi (alts : List String) (l : List Char) : Option (List Char) :=
  match alts with
  | [] => none
  | w :: ws =>
    if (l.take w.length).map pyLowerChar = w.data.map pyLowerChar then
      some (l.drop w.length)
    else matchAltCi ws l

/-- `\s+` followed by the continuation: at least one whitespace character;
the run is maximal (no backtracking can help, as `\s` is disjoint from both
`\d` and `\w`). -/
def skipWs1 (l : List Char) : Option (List Char) :=
  if (l.takeWhile pyIsSpace).isEmpty then none else some (l.dropWhile pyIsSpace)

/-- `\d{1,2}\s+...`: the maximal digit run must have length one or two (a
longer run fails even after backtracking, since a digit is not whitespace),
followed by whitespace. Returns the remainder after the whitespace. -/
def matchDay (l : List Char) : Option (List Char) :=
  let ds := l.takeWhile pyIsDigit
  if ds.length = 0 ∨ 3 ≤ ds.length then none
  else skipWs1 (l.drop ds.length)

/-- `\w{n,}`-style tail: at least `n` word characters at the position. -/
def atLeastWordChars (n : ℕ) (l : List Char) : Bool :=
  (l.takeWhile pyIsWord).length ≥ n

/-- First date pattern:
`^Tomorrow\s+(?:Mon|Tue|Wed|Thu|Fri|Sat|Sun)\w*\s+\d{1,2}\s+\w+` with
`re.IGNORECASE`. The `\w*` run is maximal (see `skipWs1`). -/
def datePattern1 (l : List Char) : Bool :=
  match matchAltCi ["Tomorrow"] l with
  | none => false
  | some r1 =>
    match skipWs1 r1 with
    | none => false
    | some r2 =>
      match matchAltCi ["Mon", "Tue", "Wed", "Thu", "Fri", "Sat", "Sun"] r2 with
      | none => false
      | some r3 =>
        match skipWs1 (r3.dropWhile pyIsWord) with
        | none => false
        | some r4 =>
          match matchDay r4 with
          | none => false
          | some r5 => atLeastWordChars 1 r5

/-- Second date pattern:
`^(?:Monday|...|Sunday)\s+\d{1,2}\s+\w{3,}` with `re.IGNORECASE`. -/
def datePattern2 (l : List Char) : Bool :=
  match matchAltCi ["Monday", "Tuesday", "Wednesday", "Thursday", "Friday",
      "Saturday", "Sunday"] l with
  | none => false
  | some r1 =>
    match skipWs1 r1 with
    | none => false
    | some r2 =>
      match matchDay r2 with
      | none => false
      | some r3 => atLeastWordChars 3 r3

/-- Third date pattern: `^(?:Mon|Tue|Wed|Thu|Fri|Sat|Sun)\s+\d{1,2}\s+\w{3,}`
with `re.IGNORECASE`. -/
def datePattern3 (l : List Char) : Bool :=
  match matchAltCi ["Mon", "Tue", "Wed", "Thu", "Fri", "Sat", "Sun"] l with
  | none => false
  | some r1 =>
    match skipWs1 r1 with
    | none => false
    | some r2 =>
      match matchDay r2 with
      | none => false
      | some r3 => atLeastWordChars 3 r3

/-- `_is_date_header`: any of the three `DATE_PATTERNS` matches the stripped
text (all three are `^`-anchored, so `re.search` is a match at the start). -/
def isDateHeader (text : String) : Bool :=
  let t := (pyStrip text).data
  datePattern1 t || datePattern2 t || datePattern3 t

/-- `re.sub(r"^Tomorrow\s+", "", s)` (case-sensitive): remove a leading
`Tomorrow` and the maximal whitespace run after it. -/
def removeTomorrow (s : String) : String :=
  match s.data with
  | 'T' :: 'o' :: 'm' :: 'o' :: 'r' :: 'r' :: 'o' :: 'w' :: rest =>
    if (rest.takeWhile pyIsSpace).isEmpty then s
    else String.mk (rest.dropWhile pyIsSpace)
  | _ => s

/-- `_is_repeat_icon_ocr`: short, low-confidence text at the right edge. -/
def isRepeatIconOcr (box : OCRBox) (frameWidth : ℕ) : Bool :=
  decide ((frameWidth : ℚ) * REPEAT_ICON_X_THRESHOLD < (box.xMin : ℚ)) &&
    decide (box.confidence ≤ REPEAT_ICON_MAX_CONFIDENCE) &&
    decide ((pyStrip box.text).length ≤ REPEAT_ICON_MAX_TEXT_LEN)

/-- Cluster scan of `_detect_repeat_icons_pixel` over the per-row counts of
bright pixels: for each maximal run of rows with at least
`REPEAT_ICON_MIN_BRIGHT_PIXELS`, record `top_cutoff + (start + end) / 2`. -/
def iconClusterScan (minPix topCut : ℕ) : ℕ → List ℕ → Bool → ℕ → List ℕ
  | n, [], inCluster, clusterStart =>
    if inCluster then [topCut + (clusterStart + n) / 2] else []
  | n, cnt :: rest, inCluster, clusterStart =>
    if minPix ≤ cnt then
      if inCluster then iconClusterScan minPix topCut (n + 1) rest true clusterStart
      else iconClusterScan minPix topCut (n + 1) rest true n
    else
      if inCluster then
        (topCut + (clusterStart + n) / 2) ::
          iconClusterScan minPix topCut (n + 1) rest false clusterStart
      else iconClusterScan minPix topCut (n + 1) rest false clusterStart

/-- `_detect_repeat_icons_pixel`: scan the right-margin strip of the content
band for clusters of bright rows; return the cluster y-centers. `numpy`
shapes are rectangular, so the width is read off the first row. -/
def detectRepeatIconsPixel (frameGray : List (List ℕ)) : List ℕ :=
  let h := frameGray.length
  let w := (frameGray.headD []).length
  let rightMarginStart := (pyTrunc ((w : ℚ) * (1 - REPEAT_ICON_RIGHT_MARGIN))).toNat
  let topCutoff := (pyTrunc ((h : ℚ) * CONTENT_Y_TOP)).toNat
  let bottomCutoff := (pyTrunc ((h : ℚ) * CONTENT_Y_BOTTOM)).toNat
  let strip := ((frameGray.drop topCutoff).take (bottomCutoff - topCutoff)).map
    (fun row => row.drop rightMarginStart)
  let rowBrightness := strip.map
    (fun row => (row.filter (fun p => REPEAT_ICON_BRIGHTNESS_THRESHOLD < p)).length)
  iconClusterScan REPEAT_ICON_MIN_BRIGHT_PIXELS topCutoff 0 rowBrightness false 0

/-- `_filter_content_boxes`: keep boxes whose vertical extent lies within the
content band. -/
def filterContentBoxes (boxes : List OCRBox) (frameHeight : ℕ) : List OCRBox :=
  boxes.filter (fun b =>
    decide ((frameHeight : ℚ) * CONTENT_Y_TOP ≤ (b.yMin : ℚ)) &&
      decide ((b.yMax : ℚ) ≤ (frameHeight : ℚ) * CONTENT_Y_BOTTOM))

/-- Mean `y_center` of a nonempty group of boxes. -/
def rowYMean (boxes : List OCRBox) : ℚ :=
  (boxes.map OCRBox.yCenter).sum / (boxes.length : ℚ)

/-- Ordering relation for Python's stable `sorted(•, key=λb: b.y_center)`,
modeled with the stable `List.insertionSort`. -/
def yCenterLe (a b : OCRBox) : Prop := a.yCenter ≤ b.yCenter

instance : DecidableRel yCenterLe :=
  fun a b => inferInstanceAs (Decidable (a.yCenter ≤ b.yCenter))

/-- Ordering relation for `sorted(•, key=λb: b.x_min)`. -/
def xMinLe (a b : OCRBox) : Prop := a.xMin ≤ b.xMin

instance : DecidableRel xMinLe :=
  fun a b => inferInstanceAs (Decidable (a.xMin ≤ b.xMin))

/-- Sub-line clustering loop of `_order_row_boxes` over y-sorted boxes:
boxes within `SUB_LINE_TOLERANCE = 25` of the running mean join the current
sub-line; each finished sub-line is sorted by `x_min` (stably). -/
def subLineClusters : List OCRBox → List OCRBox → List (List OCRBox)
  | currentLine, [] => [List.insertionSort xMinLe currentLine]
  | currentLine, b :: rest =>
    if |b.yCenter - rowYMean currentLine| ≤ (25 : ℚ) then
      subLineClusters (currentLine ++ [b]) rest
    else
      List.insertionSort xMinLe currentLine :: subLineClusters [b] rest

/-- `_order_row_boxes`: order a row's boxes by sub-line (tight y-clusters,
top to bottom), then by `x_min` within each sub-line. -/
def orderRowBoxes (boxes : List OCRBox) : List OCRBox :=
  if boxes.length ≤ 1 then boxes
  else
    match List.insertionSort yCenterLe boxes with
    | [] => []
    | s0 :: srest => (subLineClusters [s0] srest).flatten

/-- Row clustering loop of `_group_into_rows` over y-sorted boxes: a box
within `ROW_Y_TOLERANCE` of the running mean y-center joins the current row,
else it starts a new one; finished rows pass through `_order_row_boxes`. -/
def rowClusters : List OCRBox → List OCRBox → List (List OCRBox)
  | currentRow, [] => [orderRowBoxes currentRow]
  | currentRow, b :: rest =>
    if |b.yCenter - rowYMean currentRow| ≤ (ROW_Y_TOLERANCE : ℚ) then
      rowClusters (currentRow ++ [b]) rest
    else
      orderRowBoxes currentRow :: rowClusters [b] rest

/-- `_group_into_rows`. -/
def groupIntoRows (boxes : List OCRBox) : List (List OCRBox) :=
  match List.insertionSort yCenterLe boxes with
  | [] => []
  | s0 :: srest => rowClusters [s0] srest

/-- `_row_has_repeat_icon_pixel` with its default tolerance 50. -/
def rowHasRepeatIconPixel (rowY : ℚ) (iconYs : List ℤ) : Bool :=
  iconYs.any (fun iy => |rowY - (iy : ℚ)| < 50)

/-- The joined, whitespace-collapsed text of a row (`full_text`). -/
def rowFullText (row : List OCRBox) : String :=
  collapseWs (pyStrip (String.intercalate " " (row.map (·.text))))

/-- One step of the per-box scan of `parse_frame` for one row: collect the
confidence, probe for a leading time token while none has been found, and
collect the body text parts. State: (time_str, text_parts, confidences). -/
def rowScanStep (acc : String × List String × List ℚ) (b : OCRBox) :
    String × List String × List ℚ :=
  let confs := acc.2.2 ++ [b.confidence]
  if acc.1 = "" then
    match extractTimeToken b.text with
    | some (t, rem) => (t, if rem ≠ "" then acc.2.1 ++ [rem] else acc.2.1, confs)
    | none => (acc.1, acc.2.1 ++ [b.text], confs)
  else (acc.1, acc.2.1 ++ [b.text], confs)

/-- The per-box scan of `parse_frame` for one row. -/
def rowScan (row : List OCRBox) : String × List String × List ℚ :=
  row.foldl rowScanStep ("", [], [])

/-- One iteration of the row loop of `parse_frame`, threading
`(current_date, reminders)`. `none` models an uncaught exception (only
`int()` inside `_normalize_time` could raise, and never does on the
time tokens that reach it). -/
def processRow (iconYs : List ℕ) (ocrRepeatYs : List ℚ)
    (st : String × List Reminder) (row : List OCRBox) :
    Option (String × List Reminder) :=
  let fullText := rowFullText row
  let rowY := rowYMean row
  if isDateHeader fullText then
    some (removeTomorrow (pyStrip fullText), st.2)
  else
    let scan := rowScan row
    if scan.1 = "" then
      match st.2.getLast? with
      | none => some st
      | some last =>
        some (st.1, st.2.dropLast ++ [{ last with text := last.text ++ "\n" ++ fullText }])
    else
      let hasRepeat := rowHasRepeatIconPixel rowY (iconYs.map Int.ofNat) ||
        rowHasRepeatIconPixel rowY (ocrRepeatYs.map pyTrunc)
      let reminderText := pyStrip (String.intercalate " " scan.2.1)
      let avgConf : ℚ :=
        if scan.2.2.length ≠ 0 then scan.2.2.sum / (scan.2.2.length : ℚ) else 0
      match normalizeTime scan.1 with
      | none => none
      | some nt =>
        if nt ≠ "" ∧ reminderText ≠ "" then
          some (st.1, st.2 ++ [⟨st.1, nt, reminderText, hasRepeat, avgConf⟩])
        else if nt ≠ "" then
          some (st.1, st.2 ++ [⟨st.1, nt, "", hasRepeat, avgConf⟩])
        else some st

/-- `parse_frame`: filter to the content band, split off repeat-icon OCR
boxes, detect pixel icons, group the remaining boxes into rows, and run the
row loop. `none` models an uncaught exception (never reached, see
`processRow`). -/
def parseFrame (boxes : List OCRBox) (frameGray : List (List ℕ))
    (frameWidth frameHeight : ℕ) : Option (List Reminder) :=
  let contentBoxes := filterContentBoxes boxes frameHeight
  if contentBoxes.isEmpty then some []
  else
    let iconYs := detectRepeatIconsPixel frameGray
    let ocrRepeatYs :=
      (contentBoxes.filter (fun b => isRepeatIconOcr b frameWidth)).map OCRBox.yCenter
    let realBoxes := contentBoxes.filter (fun b => !isRepeatIconOcr b frameWidth)
    let rows := groupIntoRows realBoxes
    if rows.isEmpty then some []
    else
      (rows.foldlM (m := Option) (processRow iconYs ocrRepeatYs) ("", [])).map (·.2)

/-! ## Claims about the deduplicator -/

/-- C2 counterexample: on an identity match with strictly higher incoming
confidence, the stored entry's date field is NOT left unchanged — the whole
incoming reminder replaces the entry (`merged[i] = reminder`), so a fuzzily
matched date string is overwritten: "Thursday 13 Feb" becomes "Thu 13 Feb". -/
theorem dedupIdentityReplace_date_cex :
    remindersMatch ⟨"Thursday 13 Feb", "09:00", "buy milk", false, 1/2⟩
        ⟨"Thu 13 Feb", "09:00", "buy milk", false, 9/10⟩ = true ∧
    ((1 : ℚ)/2 < 9/10) ∧
    deduplicate [[⟨"Thursday 13 Feb", "09:00", "buy milk", false, 1/2⟩],
        [⟨"Thu 13 Feb", "09:00", "buy milk", false, 9/10⟩]] =
      [⟨"Thu 13 Feb", "09:00", "buy milk", false, 9/10⟩] ∧
    "Thu 13 Feb" ≠ "Thursday 13 Feb" := by
  decide

/-- C2 (amended): on an identity match, when the incoming reminder has
strictly higher confidence the stored entry is replaced wholesale by the
incoming reminder — its date, time, text and confidence all become the
incoming ones (time is equal under the match, but the date may differ
fuzzily) — with the repeats flag becoming `stored.repeats OR
incoming.repeats`; otherwise the stored entry is kept entirely except that
its repeats flag absorbs the incoming one. -/
theorem dedupInsert_identity_match (e r : Reminder) (rest : List Reminder)
    (hm : remindersMatch e r = true) :
    (e.confidence < r.confidence →
      dedupInsert (e :: rest) r = { r with repeats := e.repeats || r.repeats } :: rest) ∧
    (¬ e.confidence < r.confidence →
      dedupInsert (e :: rest) r = { e with repeats := e.repeats || r.repeats } :: rest) := by
  constructor
  · intro h
    simp [dedupInsert, hm, h]
  · intro h
    simp [dedupInsert, hm, h]

theorem dedupInsert_identity_match_witness :
    dedupInsert [⟨"Thursday 13 Feb", "09:00", "buy milk", false, 1/2⟩]
        ⟨"Thu 13 Feb", "09:00", "buy milk", false, 9/10⟩ =
      [⟨"Thu 13 Feb", "09:00", "buy milk", false, 9/10⟩] := by
  rw [(dedupInsert_identity_match ⟨"Thursday 13 Feb", "09:00", "buy milk", false, 1/2⟩
    ⟨"Thu 13 Feb", "09:00", "buy milk", false, 9/10⟩ [] (by decide)).1 (by decide)]
  decide

/-- C3: for two observations of the same reminder (both directions of the
matching predicate hold) with different confidences and nonempty texts,
merging the frames `[[A],[B]]` and `[[B],[A]]` gives the same one-element
deduplicated list, whose text is the higher-confidence observation's text. -/
theorem deduplicate_pair_order_independent (A B : Reminder)
    (hAB : remindersMatch A B = true) (hBA : remindersMatch B A = true)
    (hconf : A.confidence ≠ B.confidence)
    (hA : A.text ≠ "") (hB : B.text ≠ "") :
    deduplicate [[A], [B]] = deduplicate [[B], [A]] ∧
    (deduplicate [[A], [B]]).map Reminder.text =
      [if A.confidence < B.confidence then B.text else A.text] := by
  have h1 : dedupMerged [[A], [B]] = dedupInsert [A] B := by
    simp [dedupMerged, dedupInsert, hA, hB]
  have h2 : dedupMerged [[B], [A]] = dedupInsert [B] A := by
    simp [dedupMerged, dedupInsert, hA, hB]
  rcases lt_or_gt_of_ne hconf with h | h
  · have e1 : dedupInsert [A] B = [{ B with repeats := A.repeats || B.repeats }] := by
      simp [dedupInsert, hAB, h]
    have e2 : dedupInsert [B] A = [{ B with repeats := B.repeats || A.repeats }] := by
      simp [dedupInsert, hBA, not_lt.mpr (le_of_lt h)]
    have erec : ({ B with repeats := A.repeats || B.repeats } : Reminder)
        = { B with repeats := B.repeats || A.repeats } := by
      simp [Bool.or_comm]
    simp only [deduplicate, h1, h2, e1, e2, erec, List.insertionSort, List.orderedInsert,
      List.map, if_pos h]
    exact ⟨trivial, trivial⟩
  · have e1 : dedupInsert [A] B = [{ A with repeats := A.repeats || B.repeats }] := by
      simp [dedupInsert, hAB, not_lt.mpr (le_of_lt h)]
    have e2 : dedupInsert [B] A = [{ A with repeats := B.repeats || A.repeats }] := by
      simp [dedupInsert, hBA, h]
    have erec : ({ A with repeats := A.repeats || B.repeats } : Reminder)
        = { A with repeats := B.repeats || A.repeats } := by
      simp [Bool.or_comm]
    simp only [deduplicate, h1, h2, e1, e2, erec, List.insertionSort, List.orderedInsert,
      List.map, if_neg (not_lt.mpr (le_of_lt h))]
    exact ⟨trivial, trivial⟩

theorem deduplicate_pair_order_independent_witness :
    deduplicate [[(⟨"Thursday 13 Feb", "09:00", "buy milk", false, 1/2⟩ : Reminder)],
        [⟨"Thursday 13 Feb", "09:00", "buy milk", true, 9/10⟩]] =
      deduplicate [[(⟨"Thursday 13 Feb", "09:00", "buy milk", true, 9/10⟩ : Reminder)],
        [⟨"Thursday 13 Feb", "09:00", "buy milk", false, 1/2⟩]] ∧
    (deduplicate [[(⟨"Thursday 13 Feb", "09:00", "buy milk", false, 1/2⟩ : Reminder)],
        [⟨"Thursday 13 Feb", "09:00", "buy milk", true, 9/10⟩]]).map Reminder.text =
      [if (1 : ℚ)/2 < 9/10 then "buy milk" else "buy milk"] :=
  deduplicate_pair_order_independent
    ⟨"Thursday 13 Feb", "09:00", "buy milk", false, 1/2⟩
    ⟨"Thursday 13 Feb", "09:00", "buy milk", true, 9/10⟩
    (by decide) (by decide) (by decide) (by decide) (by decide)

/-- Modelled from the spec (§4.3), for comparison with `isSubstringMatch`:
the substring rule requires the same date (the identity rule's date-matching
notion), exactly equal time, and that the word set of the shorter of the two
texts overlaps the longer text's word set at ≥ 80% (an empty word set makes
the ℚ ratio zero, so the code's early `False` returns coincide). -/
def specSubstringFires (a b : Reminder) : Bool :=
  let sl := if a.text.length ≤ b.text.length then (a.text, b.text) else (b.text, a.text)
  dateMatches a.date b.date && (a.time == b.time) &&
    decide ((4 : ℚ)/5 ≤ ((wordSet sl.1 ∩ wordSet sl.2).card : ℚ) / ((wordSet sl.1).card : ℚ))

theorem wordSet_empty_string : wordSet "" = ∅ := by decide

theorem isSubstringMatch_eq_spec (a b : Reminder) :
    isSubstringMatch a b = specSubstringFires a b := by
  have h08 : (0.8 : ℚ) = 4/5 := by norm_num
  have hformula : ∀ s l : Finset String, s = ∅ →
      ¬ ((4 : ℚ)/5 ≤ ((s ∩ l).card : ℚ) / (s.card : ℚ)) := by
    intro s l hs
    subst hs
    simp only [Finset.empty_inter, Finset.card_empty, Nat.cast_zero, zero_div]
    norm_num
  rw [Bool.eq_iff_iff]
  simp only [isSubstringMatch, specSubstringFires, wordSet]
  cases hdm : dateMatches a.date b.date
  · simp
  · simp only [Bool.not_true, Bool.false_eq_true, if_false, Bool.true_and]
    by_cases ht : a.time = b.time
    · rw [if_neg (by simp [ht] : ¬ a.time ≠ b.time), ht]
      simp only [beq_self_eq_true, Bool.true_and]
      by_cases hs1 : (if a.text.length ≤ b.text.length then (a.text, b.text)
          else (b.text, a.text)).1 = ""
      · have hw : ((pySplit (normalizeText
            (if a.text.length ≤ b.text.length then (a.text, b.text)
              else (b.text, a.text)).1)).toFinset : Finset String) = ∅ := by
          rw [hs1]
          decide
        rw [if_pos hs1, decide_eq_false (hformula _ _ hw)]
      · rw [if_neg hs1]
        by_cases hs2 : ((pySplit (normalizeText
            (if a.text.length ≤ b.text.length then (a.text, b.text)
              else (b.text, a.text)).1)).toFinset : Finset String) = ∅
        · rw [if_pos hs2, decide_eq_false (hformula _ _ hs2)]
        · rw [if_neg hs2]
          simp only [decide_eq_true_eq, h08]
    · rw [if_pos ht]
      have : (a.time == b.time) = false := by
        simp [ht]
      rw [this]
      simp

/-- C5: the substring/containment rule — checked only at entries where the
identity rule fails — fires exactly under the spec's condition (same date,
exactly equal time, ≥ 80% of the shorter text's words inside the longer
text's word set), and on firing the repeats flags are OR-ed while the stored
text and confidence are replaced by the incoming ones if and only if the
incoming text is strictly shorter and the incoming confidence is at least
0.8 × the stored confidence; when neither rule fires the entry is kept
untouched and the scan continues. -/
theorem dedupInsert_substring_rule (e r : Reminder) (rest : List Reminder)
    (hni : remindersMatch e r = false) :
    (isSubstringMatch e r = specSubstringFires e r) ∧
    (isSubstringMatch e r = true →
      dedupInsert (e :: rest) r =
        (if r.text.length < e.text.length ∧ e.confidence * 0.8 ≤ r.confidence then
          { e with repeats := e.repeats || r.repeats,
                   text := r.text, confidence := r.confidence }
        else { e with repeats := e.repeats || r.repeats }) :: rest) ∧
    (isSubstringMatch e r = false →
      dedupInsert (e :: rest) r = e :: dedupInsert rest r) := by
  refine ⟨isSubstringMatch_eq_spec e r, ?_, ?_⟩
  · intro hs
    simp only [dedupInsert, hni, Bool.false_eq_true, if_false, hs, if_true]
  · intro hs
    simp only [dedupInsert, hni, hs, Bool.false_eq_true, if_false]

theorem dedupInsert_substring_rule_witness :
    isSubstringMatch ⟨"Thursday 13 Feb", "09:00", "pay rent x1 y2 z3", false, 1⟩
        ⟨"Thursday 13 Feb", "09:00", "pay rent", false, 9/10⟩ =
      specSubstringFires ⟨"Thursday 13 Feb", "09:00", "pay rent x1 y2 z3", false, 1⟩
        ⟨"Thursday 13 Feb", "09:00", "pay rent", false, 9/10⟩ ∧
    dedupInsert [⟨"Thursday 13 Feb", "09:00", "pay rent x1 y2 z3", false, 1⟩]
        ⟨"Thursday 13 Feb", "09:00", "pay rent", false, 9/10⟩ =
      [⟨"Thursday 13 Feb", "09:00", "pay rent", false, 9/10⟩] := by
  have h := dedupInsert_substring_rule
    ⟨"Thursday 13 Feb", "09:00", "pay rent x1 y2 z3", false, 1⟩
    ⟨"Thursday 13 Feb", "09:00", "pay rent", false, 9/10⟩ [] (by decide)
  refine ⟨h.1, ?_⟩
  rw [h.2.1 (by decide)]
  decide


/-! ## Order lemmas for the dedup sort key -/

theorem pyStrLtChars_irrefl (l : List Char) : pyStrLtChars l l = false := by
  induction l with
  | nil => rfl
  | cons c rest ih => simp [pyStrLtChars, ih]

theorem pyStrLtChars_not_both : ∀ s t : List Char,
    pyStrLtChars s t = true → pyStrLtChars t s = false
  | [], [] => by simp [pyStrLtChars]
  | [], _ :: _ => by simp [pyStrLtChars]
  | _ :: _, [] => by simp [pyStrLtChars]
  | a :: as_, b :: bs => by
    intro h
    rcases Nat.lt_trichotomy a.toNat b.toNat with hc | hc | hc
    · simp [pyStrLtChars, hc, Nat.lt_asymm hc]
    · have h' : pyStrLtChars as_ bs = true := by
        simpa [pyStrLtChars, hc, lt_irrefl] using h
      simp [pyStrLtChars, hc, lt_irrefl, pyStrLtChars_not_both as_ bs h']
    · simp [pyStrLtChars, hc, Nat.lt_asymm hc] at h

theorem pyStrLtChars_total : ∀ s t : List Char,
    pyStrLtChars s t = true ∨ pyStrLtChars t s = true ∨ s = t
  | [], [] => by simp [pyStrLtChars]
  | [], _ :: _ => by simp [pyStrLtChars]
  | _ :: _, [] => by simp [pyStrLtChars]
  | a :: as_, b :: bs => by
    rcases Nat.lt_trichotomy a.toNat b.toNat with hc | hc | hc
    · left
      simp [pyStrLtChars, hc]
    · have hEq : a = b := Char.eq_of_val_eq (UInt32.ext hc)
      subst hEq
      rcases pyStrLtChars_total as_ bs with h | h | h
      · left
        simp [pyStrLtChars, h]
      · right; left
        simp [pyStrLtChars, h]
      · right; right
        rw [h]
    · right; left
      simp [pyStrLtChars, hc]

theorem pyStrLtChars_trans : ∀ s t u : List Char, pyStrLtChars s t = true →
    pyStrLtChars t u = true → pyStrLtChars s u = true
  | [], _, [] => by
    intro h1 h2
    cases ‹List Char› <;> simp_all [pyStrLtChars]
  | [], _, _ :: _ => by
    intro _ _
    rfl
  | _ :: _, [], _ => by
    intro h1 _
    simp [pyStrLtChars] at h1
  | a :: as_, b :: bs, [] => by
    intro _ h2
    simp [pyStrLtChars] at h2
  | a :: as_, b :: bs, c :: cs => by
    intro h1 h2
    rcases Nat.lt_trichotomy a.toNat b.toNat with hab | hab | hab
    · rcases Nat.lt_trichotomy b.toNat c.toNat with hbc | hbc | hbc
      · simp [pyStrLtChars, show a.toNat < c.toNat by omega]
      · simp [pyStrLtChars, show a.toNat < c.toNat by omega]
      · simp [pyStrLtChars, hbc, Nat.lt_asymm hbc] at h2
    · rcases Nat.lt_trichotomy b.toNat c.toNat with hbc | hbc | hbc
      · simp [pyStrLtChars, show a.toNat < c.toNat by omega]
      · have h1' : pyStrLtChars as_ bs = true := by
          simpa [pyStrLtChars, hab, lt_irrefl] using h1
        have h2' : pyStrLtChars bs cs = true := by
          simpa [pyStrLtChars, hbc, lt_irrefl] using h2
        simp [pyStrLtChars, show a.toNat = c.toNat by omega, lt_irrefl,
          pyStrLtChars_trans as_ bs cs h1' h2']
      · simp [pyStrLtChars, hbc, Nat.lt_asymm hbc] at h2
    · simp [pyStrLtChars, hab, Nat.lt_asymm hab] at h1

theorem pyStrLe_total (s t : String) : pyStrLe s t = true ∨ pyStrLe t s = true := by
  unfold pyStrLe
  rcases pyStrLtChars_total t.data s.data with h | h | h
  · right
    simp [pyStrLtChars_not_both t.data s.data h]
  · left
    simp [pyStrLtChars_not_both s.data t.data h]
  · left
    rw [h]
    simp [pyStrLtChars_irrefl]

theorem pyStrLe_trans (x y z : String) (h1 : pyStrLe x y = true)
    (h2 : pyStrLe y z = true) : pyStrLe x z = true := by
  unfold pyStrLe at h1 h2 ⊢
  simp only [Bool.not_eq_true'] at h1 h2 ⊢
  cases hzx : pyStrLtChars z.data x.data
  · rfl
  · exfalso
    rcases pyStrLtChars_total y.data z.data with h | h | h
    · have := pyStrLtChars_trans y.data z.data x.data h hzx
      rw [this] at h1
      exact Bool.true_eq_false.mp h1
    · rw [h] at h2
      exact Bool.true_eq_false.mp h2
    · rw [← h] at hzx
      rw [hzx] at h1
      exact Bool.true_eq_false.mp h1

theorem dedupKeyLe_total (ds : List String) (a b : Reminder) :
    dedupKeyLe ds a b = true ∨ dedupKeyLe ds b a = true := by
  unfold dedupKeyLe
  rcases Nat.lt_trichotomy (dateOrderIdx ds a.date) (dateOrderIdx ds b.date) with h | h | h
  · left
    simp [h]
  · rcases pyStrLe_total a.time b.time with ht | ht
    · left
      simp [h, ht]
    · right
      simp [h, ht]
  · right
    simp [h]

theorem dedupKeyLe_trans (ds : List String) (a b c : Reminder)
    (h1 : dedupKeyLe ds a b = true) (h2 : dedupKeyLe ds b c = true) :
    dedupKeyLe ds a c = true := by
  unfold dedupKeyLe at h1 h2 ⊢
  simp only [Bool.or_eq_true, Bool.and_eq_true, decide_eq_true_eq, beq_iff_eq] at h1 h2 ⊢
  rcases h1 with h1 | ⟨h1e, h1t⟩ <;> rcases h2 with h2 | ⟨h2e, h2t⟩
  · left
    omega
  · left
    omega
  · left
    omega
  · right
    exact ⟨by omega, pyStrLe_trans _ _ _ h1t h2t⟩

/-! ## Text-nonemptiness invariant of the merge -/

theorem dedupInsert_text_ne : ∀ (m : List Reminder) (r : Reminder), r.text ≠ "" →
    (∀ x ∈ m, x.text ≠ "") → ∀ x ∈ dedupInsert m r, x.text ≠ ""
  | [], r, hr, _ => by
    simpa [dedupInsert] using hr
  | e :: rest, r, hr, hm => by
    have he : e.text ≠ "" := hm e (List.mem_cons_self e rest)
    have hrest : ∀ x ∈ rest, x.text ≠ "" := fun x hx => hm x (List.mem_cons_of_mem e hx)
    simp only [dedupInsert]
    by_cases h1 : remindersMatch e r = true
    · simp only [h1, if_true]
      intro x hx
      rcases List.mem_cons.mp hx with hx | hx
      · subst hx
        split
        · exact hr
        · exact he
      · exact hrest x hx
    · simp only [h1, if_false, Bool.false_eq_true]
      by_cases h2 : isSubstringMatch e r = true
      · simp only [h2, if_true]
        intro x hx
        rcases List.mem_cons.mp hx with hx | hx
        · subst hx
          split
          · exact hr
          · exact he
        · exact hrest x hx
      · simp only [h2, if_false, Bool.false_eq_true]
        intro x hx
        rcases List.mem_cons.mp hx with hx | hx
        · subst hx
          exact he
        · exact dedupInsert_text_ne rest r hr hrest x hx

theorem dedupFrameFold_text_ne : ∀ (frame : List Reminder) (acc : List Reminder),
    (∀ x ∈ acc, x.text ≠ "") →
    ∀ x ∈ frame.foldl (fun m r => if r.text = "" then m else dedupInsert m r) acc,
      x.text ≠ ""
  | [], acc, h => by simpa using h
  | r :: rest, acc, h => by
    rw [List.foldl_cons]
    by_cases hr : r.text = ""
    · rw [if_pos hr]
      exact dedupFrameFold_text_ne rest acc h
    · rw [if_neg hr]
      exact dedupFrameFold_text_ne rest _ (dedupInsert_text_ne acc r hr h)

theorem dedupMergedAux_text_ne : ∀ (pfr : List (List Reminder)) (acc : List Reminder),
    (∀ x ∈ acc, x.text ≠ "") →
    ∀ x ∈ pfr.foldl
      (fun merged frame =>
        frame.foldl (fun m r => if r.text = "" then m else dedupInsert m r) merged) acc,
      x.text ≠ ""
  | [], acc, h => by simpa using h
  | f :: rest, acc, h => by
    rw [List.foldl_cons]
    exact dedupMergedAux_text_ne rest _ (dedupFrameFold_text_ne f acc h)

theorem dedupMerged_text_ne (pfr : List (List Reminder)) :
    ∀ x ∈ dedupMerged pfr, x.text ≠ "" :=
  dedupMergedAux_text_ne pfr [] (by simp)

/-- C8: the list returned by `deduplicate` contains no reminder with empty
text, and it is sorted by (first-encounter order of the date label in the
merged list, ascending; then time string ascending, by code-point
comparison). -/
theorem deduplicate_no_empty_and_sorted (pfr : List (List Reminder)) :
    (∀ r ∈ deduplicate pfr, r.text ≠ "") ∧
    List.Sorted (fun a b => dedupKeyLe (dateFirstSeen (dedupMerged pfr)) a b = true)
      (deduplicate pfr) := by
  constructor
  · intro r hr
    have hperm := List.perm_insertionSort
      (fun a b => dedupKeyLe (dateFirstSeen (dedupMerged pfr)) a b = true)
      (dedupMerged pfr)
    have hmem : r ∈ dedupMerged pfr := by
      refine hperm.mem_iff.mp ?_
      simpa [deduplicate] using hr
    exact dedupMerged_text_ne pfr r hmem
  · haveI : IsTotal Reminder
        (fun a b => dedupKeyLe (dateFirstSeen (dedupMerged pfr)) a b = true) :=
      ⟨dedupKeyLe_total (dateFirstSeen (dedupMerged pfr))⟩
    haveI : IsTrans Reminder
        (fun a b => dedupKeyLe (dateFirstSeen (dedupMerged pfr)) a b = true) :=
      ⟨dedupKeyLe_trans (dateFirstSeen (dedupMerged pfr))⟩
    have := List.sorted_insertionSort
      (fun a b => dedupKeyLe (dateFirstSeen (dedupMerged pfr)) a b = true)
      (dedupMerged pfr)
    simpa [deduplicate] using this

/-! ## Row grouping under permutation (C9) -/

instance : IsTotal OCRBox yCenterLe := ⟨fun a b => le_total a.yCenter b.yCenter⟩

instance : IsTrans OCRBox yCenterLe := ⟨fun _ _ _ h1 h2 => le_trans h1 h2⟩

/-- For boxes with pairwise distinct `y_center`s, the stable sort of any
permutation is the same list: both sorts are permutations of each other and
strictly sorted by `y_center`. -/
theorem insertionSort_eq_of_perm_of_distinct (l1 l2 : List OCRBox)
    (hp : l1.Perm l2) (hd : l1.Pairwise (fun a b => a.yCenter ≠ b.yCenter)) :
    List.insertionSort yCenterLe l1 = List.insertionSort yCenterLe l2 := by
  have hs1 := List.sorted_insertionSort yCenterLe l1
  have hs2 := List.sorted_insertionSort yCenterLe l2
  have hp1 := List.perm_insertionSort yCenterLe l1
  have hp2 := List.perm_insertionSort yCenterLe l2
  have hperm : (List.insertionSort yCenterLe l1).Perm (List.insertionSort yCenterLe l2) :=
    (hp1.trans hp).trans hp2.symm
  have hd1 : (List.insertionSort yCenterLe l1).Pairwise
      (fun a b => a.yCenter ≠ b.yCenter) :=
    (List.Perm.pairwise_iff (fun h => h.symm) hp1).mpr hd
  have hd2 : (List.insertionSort yCenterLe l2).Pairwise
      (fun a b => a.yCenter ≠ b.yCenter) :=
    (List.Perm.pairwise_iff (fun h => h.symm) hperm.symm).mpr hd1
  have hstrict1 : (List.insertionSort yCenterLe l1).Pairwise
      (fun a b => a.yCenter < b.yCenter) :=
    (hs1.and hd1).imp (fun h => lt_of_le_of_ne h.1 h.2)
  have hstrict2 : (List.insertionSort yCenterLe l2).Pairwise
      (fun a b => a.yCenter < b.yCenter) :=
    (hs2.and hd2).imp (fun h => lt_of_le_of_ne h.1 h.2)
  haveI : IsAntisymm OCRBox (fun a b => a.yCenter < b.yCenter) :=
    ⟨fun _ _ h h' => absurd h' (lt_asymm h)⟩
  exact List.eq_of_perm_of_sorted hperm hstrict1 hstrict2

/-- C9 counterexample: two boxes with identical coordinates but different
texts. Row grouping ends with Python's stable sort order, so the two
orderings of the same box set yield rows with different within-row order and
different concatenated text — grouping is NOT invariant under every
permutation. -/
theorem groupIntoRows_perm_cex :
    ([⟨"a", 1, 5, 100, 6, 120⟩, ⟨"b", 1, 5, 100, 6, 120⟩] : List OCRBox).Perm
      [⟨"b", 1, 5, 100, 6, 120⟩, ⟨"a", 1, 5, 100, 6, 120⟩] ∧
    groupIntoRows [⟨"a", 1, 5, 100, 6, 120⟩, ⟨"b", 1, 5, 100, 6, 120⟩] ≠
      groupIntoRows [⟨"b", 1, 5, 100, 6, 120⟩, ⟨"a", 1, 5, 100, 6, 120⟩] := by
  constructor
  · decide
  · decide

/-- C9 (amended): row grouping is invariant under permutation of the input
boxes whenever the boxes have pairwise distinct `y_center`s (ties in
`y_center` are broken by Python's stable sort, i.e. by input order, so some
tie-breaking hypothesis is necessary — see the counterexample). -/
theorem groupIntoRows_perm_invariant (l1 l2 : List OCRBox)
    (hp : l1.Perm l2) (hd : l1.Pairwise (fun a b => a.yCenter ≠ b.yCenter)) :
    groupIntoRows l1 = groupIntoRows l2 := by
  unfold groupIntoRows
  rw [insertionSort_eq_of_perm_of_distinct l1 l2 hp hd]

theorem groupIntoRows_perm_invariant_witness :
    groupIntoRows [⟨"a", 1, 5, 100, 6, 120⟩, ⟨"b", 1, 5, 300, 6, 320⟩] =
      groupIntoRows [⟨"b", 1, 5, 300, 6, 320⟩, ⟨"a", 1, 5, 100, 6, 120⟩] :=
  groupIntoRows_perm_invariant _ _ (by decide) (by decide)

/-! ## Time-format invariant (C4) -/

/-- The spec's invariant pattern `\d{2}:\d{2}` (exactly five characters). -/
def isHHMM (s : String) : Bool :=
  match s.data with
  | [h1, h2, c, m1, m2] =>
    pyIsDigit h1 && pyIsDigit h2 && c = ':' && pyIsDigit m1 && pyIsDigit m2
  | _ => false

theorem pyIsDigit_toNat {c : Char} (h : pyIsDigit c = true) :
    48 ≤ c.toNat ∧ c.toNat ≤ 57 := by
  simpa [pyIsDigit, Bool.and_eq_true, decide_eq_true_eq] using h

theorem pyIsDigit_not_space {c : Char} (h : pyIsDigit c = true) :
    pyIsSpace c = false := by
  have := pyIsDigit_toNat h
  simp only [pyIsSpace, Bool.or_eq_false_iff, decide_eq_false_iff_not]
  omega

theorem pyIsDigit_ne_colon {c : Char} (h : pyIsDigit c = true) : c ≠ ':' := by
  intro he
  subst he
  exact absurd h (by decide)

theorem pyIsDigit_ne_dot {c : Char} (h : pyIsDigit c = true) : c ≠ '.' := by
  intro he
  subst he
  exact absurd h (by decide)

theorem pyIsDigit_ne_plus {c : Char} (h : pyIsDigit c = true) : c ≠ '+' := by
  intro he
  subst he
  exact absurd h (by decide)

theorem pyIsDigit_ne_minus {c : Char} (h : pyIsDigit c = true) : c ≠ '-' := by
  intro he
  subst he
  exact absurd h (by decide)

theorem dropWhile_eq_self_of_all_neg {p : Char → Bool} :
    ∀ l : List Char, (∀ c ∈ l, p c = false) → l.dropWhile p = l
  | [], _ => rfl
  | c :: rest, h => by
    rw [List.dropWhile_cons, if_neg]
    simp [h c (List.mem_cons_self c rest)]

theorem pyStripChars_eq_self (l : List Char) (h : ∀ c ∈ l, pyIsSpace c = false) :
    pyStripChars l = l := by
  unfold pyStripChars
  rw [dropWhile_eq_self_of_all_neg l h,
    dropWhile_eq_self_of_all_neg l.reverse (fun c hc => h c (List.mem_reverse.mp hc)),
    List.reverse_reverse]

/-- A separator accepted by the time pattern. -/
def isTimeSep (c : Char) : Prop := c = ':' ∨ c = '.'

theorem isTimeSep_not_space {c : Char} (h : isTimeSep c) : pyIsSpace c = false := by
  rcases h with h | h <;> subst h <;> decide

theorem isTimeSep_replace {c : Char} (h : isTimeSep c) :
    (if c = '.' then ':' else c) = ':' := by
  rcases h with h | h <;> subst h <;> decide

theorem format02d_shape : ∀ n : ℕ, n < 100 →
    (format02d (n : ℤ)).data.length = 2 ∧ (format02d (n : ℤ)).data.all pyIsDigit = true := by
  decide

/-- Value and shape of `pyIntCore` on one or two digits. -/
theorem pyIntCore_one {d : Char} (h : pyIsDigit d = true) :
    pyIntCore [d] = some (d.toNat - 48) := by
  simp [pyIntCore, h]

theorem pyIntCore_two {d e : Char} (hd : pyIsDigit d = true) (he : pyIsDigit e = true) :
    pyIntCore [d, e] = some (10 * (d.toNat - 48) + (e.toNat - 48)) := by
  simp [pyIntCore, hd, he]

theorem pyInt_digits (ds : List Char) (hne : ds ≠ []) (hd : ∀ c ∈ ds, pyIsDigit c = true) :
    pyInt (String.mk ds) = (pyIntCore ds).map Int.ofNat := by
  cases ds with
  | nil => exact absurd rfl hne
  | cons c rest =>
    have hc := hd c (List.mem_cons_self c rest)
    have hstrip : pyStripChars (String.mk (c :: rest)).data = c :: rest :=
      pyStripChars_eq_self _ (fun x hx => pyIsDigit_not_space (hd x hx))
    unfold pyInt
    rw [hstrip]
    dsimp only
    rw [if_neg (pyIsDigit_ne_plus hc), if_neg (pyIsDigit_ne_minus hc)]

/-- Core of the C4 invariant: `_normalize_time` turns any `\d{1,2}[:.]\d{2}`
token into a `\d{2}:\d{2}` string. -/
theorem normalizeTime_shape (s : String) (h : timeFullmatch s.data = true) :
    ∃ nt, normalizeTime s = some nt ∧ isHHMM nt = true := by
  have key : ∀ (hh : List Char) (sep m1 m2 : Char), (∀ c ∈ hh, pyIsDigit c = true) →
      isTimeSep sep → pyIsDigit m1 = true → pyIsDigit m2 = true →
      (∃ v : ℕ, v < 100 ∧
        pyInt (String.mk (hh.map (fun c => if c = '.' then ':' else c))) = some (v : ℤ)) →
      splitOnCharList ':' ((hh ++ [sep, m1, m2]).map (fun c => if c = '.' then ':' else c)) =
        [hh.map (fun c => if c = '.' then ':' else c), [m1, m2]] →
      ∃ nt, normalizeTime (String.mk (hh ++ [sep, m1, m2])) = some nt ∧ isHHMM nt = true := by
    rintro hh sep m1 m2 hhd hsep hm1 hm2 ⟨v, hv, hval⟩ hsplit
    have hall : ∀ c ∈ hh ++ [sep, m1, m2], pyIsSpace c = false := by
      intro c hc
      rcases List.mem_append.mp hc with hc | hc
      · exact pyIsDigit_not_space (hhd c hc)
      · simp only [List.mem_cons, List.not_mem_nil, or_false] at hc
        rcases hc with rfl | rfl | rfl
        · exact isTimeSep_not_space hsep
        · exact pyIsDigit_not_space hm1
        · exact pyIsDigit_not_space hm2
    simp only [normalizeTime, pyStrip, splitOnChar]
    rw [pyStripChars_eq_self _ hall, hsplit]
    simp only [List.map_cons, List.map_nil, List.length_cons, List.length_nil,
      Nat.zero_add, List.getD_cons_zero, List.getD_cons_succ, if_pos]
    rw [hval]
    refine ⟨_, rfl, ?_⟩
    have hsh := format02d_shape v hv
    rcases List.length_eq_two.mp hsh.1 with ⟨z1, z2, hz⟩
    have hzd : pyIsDigit z1 = true ∧ pyIsDigit z2 = true := by
      have h2 := hsh.2
      rw [hz] at h2
      simpa [List.all] using h2
    simp only [isHHMM]
    rw [show (format02d (v : ℤ) ++ ":" ++ String.mk [m1, m2]).data
        = (format02d (v : ℤ)).data ++ [':'] ++ [m1, m2] from rfl, hz]
    simp [hzd.1, hzd.2, hm1, hm2]
  rcases hl : s.data with _ | ⟨d1, _ | ⟨c2, _ | ⟨c3, _ | ⟨c4, _ | ⟨c5, _ | ⟨c6, rest⟩⟩⟩⟩⟩⟩ <;>
    rw [hl] at h
  · exact absurd h (by simp [timeFullmatch])
  · exact absurd h (by simp [timeFullmatch])
  · exact absurd h (by simp [timeFullmatch])
  · exact absurd h (by simp [timeFullmatch])
  · -- length 4: [d1, sep, m1, m2]
    simp only [timeFullmatch, Bool.and_eq_true, decide_eq_true_eq, Bool.or_eq_true,
      beq_iff_eq] at h
    obtain ⟨⟨⟨hd1, hsep⟩, hm1⟩, hm2⟩ := h
    have hs : s = String.mk ([d1] ++ [c2, c3, c4]) := by
      cases s
      simp_all
    rw [hs]
    apply key [d1] c2 c3 c4 (by simp [hd1]) hsep hm1 hm2
    · refine ⟨d1.toNat - 48, ?_, ?_⟩
      · have hb := pyIsDigit_toNat hd1
        omega
      · have hne : (if d1 = '.' then ':' else d1) = d1 := if_neg (pyIsDigit_ne_dot hd1)
        rw [List.map_cons, List.map_nil, hne,
          pyInt_digits [d1] (by simp) (by simp [hd1]), pyIntCore_one hd1]
        rfl
    · have hrep := isTimeSep_replace hsep
      have hd1n : (if d1 = '.' then ':' else d1) = d1 := if_neg (pyIsDigit_ne_dot hd1)
      have hm1n : (if c3 = '.' then ':' else c3) = c3 := if_neg (pyIsDigit_ne_dot hm1)
      have hm2n : (if c4 = '.' then ':' else c4) = c4 := if_neg (pyIsDigit_ne_dot hm2)
      simp only [List.cons_append, List.nil_append, List.map_cons, List.map_nil,
        hrep, hd1n, hm1n, hm2n]
      simp [splitOnCharList, pyIsDigit_ne_colon hd1, pyIsDigit_ne_colon hm1,
        pyIsDigit_ne_colon hm2]
  · -- length 5: [d1, d2, sep, m1, m2]
    simp only [timeFullmatch, Bool.and_eq_true, decide_eq_true_eq, Bool.or_eq_true,
      beq_iff_eq] at h
    obtain ⟨⟨⟨⟨hd1, hd2⟩, hsep⟩, hm1⟩, hm2⟩ := h
    have hdd : ∀ c ∈ [d1, c2], pyIsDigit c = true := by
      intro c hc
      simp only [List.mem_cons, List.not_mem_nil, or_false] at hc
      rcases hc with rfl | rfl
      · exact hd1
      · exact hd2
    have hs : s = String.mk ([d1, c2] ++ [c3, c4, c5]) := by
      cases s
      simp_all
    rw [hs]
    apply key [d1, c2] c3 c4 c5 hdd hsep hm1 hm2
    · refine ⟨10 * (d1.toNat - 48) + (c2.toNat - 48), ?_, ?_⟩
      · have hb1 := pyIsDigit_toNat hd1
        have hb2 := pyIsDigit_toNat hd2
        omega
      · have h1 : (if d1 = '.' then ':' else d1) = d1 := if_neg (pyIsDigit_ne_dot hd1)
        have h2 : (if c2 = '.' then ':' else c2) = c2 := if_neg (pyIsDigit_ne_dot hd2)
        rw [List.map_cons, List.map_cons, List.map_nil, h1, h2,
          pyInt_digits [d1, c2] (by simp) hdd, pyIntCore_two hd1 hd2]
        rfl
    · have hrep := isTimeSep_replace hsep
      have h1 : (if d1 = '.' then ':' else d1) = d1 := if_neg (pyIsDigit_ne_dot hd1)
      have h2 : (if c2 = '.' then ':' else c2) = c2 := if_neg (pyIsDigit_ne_dot hd2)
      have hm1n : (if c4 = '.' then ':' else c4) = c4 := if_neg (pyIsDigit_ne_dot hm1)
      have hm2n : (if c5 = '.' then ':' else c5) = c5 := if_neg (pyIsDigit_ne_dot hm2)
      simp only [List.cons_append, List.nil_append, List.map_cons, List.map_nil,
        hrep, h1, h2, hm1n, hm2n]
      simp [splitOnCharList, pyIsDigit_ne_colon hd1, pyIsDigit_ne_colon hd2,
        pyIsDigit_ne_colon hm1, pyIsDigit_ne_colon hm2]
  · exact absurd h (by simp [timeFullmatch])

theorem timeTail2_shape (g1 r o1 o2 : List Char) (h : timeTail2 g1 r = some (o1, o2)) :
    ∃ sep m1 m2, o1 = g1 ++ [sep, m1, m2] ∧ isTimeSep sep ∧
      pyIsDigit m1 = true ∧ pyIsDigit m2 = true := by
  unfold timeTail2 at h
  cases r with
  | nil => simp at h
  | cons sep rest1 =>
    cases rest1 with
    | nil => simp at h
    | cons m1 rest2 =>
      cases rest2 with
      | nil => simp at h
      | cons m2 rest =>
        dsimp only at h
        by_cases hc : ((sep = ':' || sep = '.') && pyIsDigit m1 && pyIsDigit m2) = true
        · rw [if_pos hc] at h
          simp only [Bool.and_eq_true, Bool.or_eq_true, decide_eq_true_eq] at hc
          by_cases hw : (rest.takeWhile pyIsSpace).isEmpty = true
          · rw [if_pos hw] at h
            simp at h
          · rw [if_neg hw] at h
            simp only [Option.some.injEq, Prod.mk.injEq] at h
            exact ⟨sep, m1, m2, h.1.symm, hc.1.1, hc.1.2, hc.2⟩
        · rw [if_neg hc] at h
          simp at h

theorem timeFullmatch_concat4 {d1 sep m1 m2 : Char} (hd1 : pyIsDigit d1 = true)
    (hsep : isTimeSep sep) (hm1 : pyIsDigit m1 = true) (hm2 : pyIsDigit m2 = true) :
    timeFullmatch ([d1] ++ [sep, m1, m2]) = true := by
  rcases hsep with h | h <;> subst h <;> simp [timeFullmatch, hd1, hm1, hm2]

theorem timeFullmatch_concat5 {d1 d2 sep m1 m2 : Char} (hd1 : pyIsDigit d1 = true)
    (hd2 : pyIsDigit d2 = true) (hsep : isTimeSep sep) (hm1 : pyIsDigit m1 = true)
    (hm2 : pyIsDigit m2 = true) :
    timeFullmatch ([d1, d2] ++ [sep, m1, m2]) = true := by
  rcases hsep with h | h <;> subst h <;> simp [timeFullmatch, hd1, hd2, hm1, hm2]

theorem timeMatchAt_shape (l o1 o2 : List Char) (h : timeMatchAt l = some (o1, o2)) :
    timeFullmatch o1 = true := by
  unfold timeMatchAt at h
  cases l with
  | nil => simp at h
  | cons d1 rest0 =>
    cases rest0 with
    | nil =>
      dsimp only at h
      by_cases hd : pyIsDigit d1 = true
      · rw [if_pos hd] at h
        rcases timeTail2_shape _ _ _ _ h with ⟨sep, m1, m2, he, hsep, h1, h2⟩
        subst he
        exact timeFullmatch_concat4 hd hsep h1 h2
      · rw [if_neg hd] at h
        simp at h
    | cons d2 rest =>
      dsimp only at h
      by_cases hd1 : pyIsDigit d1 = true
      · rw [if_pos hd1] at h
        by_cases hd2 : pyIsDigit d2 = true
        · rw [if_pos hd2] at h
          cases h2 : timeTail2 [d1, d2] rest with
          | some x =>
            rw [h2] at h
            simp only [Option.some.injEq] at h
            rw [h] at h2
            rcases timeTail2_shape [d1, d2] rest o1 o2 h2 with
              ⟨sep, m1, m2, he, hsep, hm1, hm2⟩
            subst he
            exact timeFullmatch_concat5 hd1 hd2 hsep hm1 hm2
          | none =>
            rw [h2] at h
            rcases timeTail2_shape _ _ _ _ h with ⟨sep, m1, m2, he, hsep, hm1, hm2⟩
            subst he
            exact timeFullmatch_concat4 hd1 hsep hm1 hm2
        · rw [if_neg hd2] at h
          rcases timeTail2_shape _ _ _ _ h with ⟨sep, m1, m2, he, hsep, hm1, hm2⟩
          subst he
          exact timeFullmatch_concat4 hd1 hsep hm1 hm2
      · rw [if_neg hd1] at h
        simp at h

theorem extractTimeToken_shape (text t rem : String)
    (h : extractTimeToken text = some (t, rem)) : timeFullmatch t.data = true := by
  unfold extractTimeToken at h
  dsimp only at h
  cases hm : timeMatchAt (pyStrip text).data with
  | some x =>
    rw [hm] at h
    simp only [Option.some.injEq, Prod.mk.injEq] at h
    have : t.data = x.1 := by
      rw [← h.1]
    rw [this]
    exact timeMatchAt_shape _ _ x.2 (by rw [hm])
  | none =>
    rw [hm] at h
    by_cases hf : timeFullmatch (pyStrip text).data = true
    · rw [if_pos hf] at h
      simp only [Option.some.injEq, Prod.mk.injEq] at h
      rw [← h.1]
      exact hf
    · rw [if_neg hf] at h
      simp at h

theorem rowScanStep_time (acc : String × List String × List ℚ) (b : OCRBox)
    (h : acc.1 = "" ∨ timeFullmatch acc.1.data = true) :
    (rowScanStep acc b).1 = "" ∨ timeFullmatch (rowScanStep acc b).1.data = true := by
  unfold rowScanStep
  by_cases ha : acc.1 = ""
  · rw [if_pos ha]
    cases he : extractTimeToken b.text with
    | some p =>
      right
      exact extractTimeToken_shape b.text p.1 p.2 (by rw [he])
    | none =>
      left
      exact ha
  · rw [if_neg ha]
    exact h

theorem rowScanFold_time (boxes : List OCRBox) :
    ∀ acc : String × List String × List ℚ,
      (acc.1 = "" ∨ timeFullmatch acc.1.data = true) →
      ((boxes.foldl rowScanStep acc).1 = "" ∨
        timeFullmatch (boxes.foldl rowScanStep acc).1.data = true) := by
  induction boxes with
  | nil => exact fun acc h => h
  | cons b rest ih =>
    intro acc h
    rw [List.foldl_cons]
    exact ih _ (rowScanStep_time acc b h)

theorem rowScan_time (row : List OCRBox) :
    (rowScan row).1 = "" ∨ timeFullmatch (rowScan row).1.data = true :=
  rowScanFold_time row ("", [], []) (Or.inl rfl)

theorem processRow_time_inv (iconYs : List ℕ) (ocrYs : List ℚ)
    (st : String × List Reminder) (row : List OCRBox)
    (st' : String × List Reminder)
    (hinv : ∀ r ∈ st.2, isHHMM r.time = true)
    (h : processRow iconYs ocrYs st row = some st') :
    ∀ r ∈ st'.2, isHHMM r.time = true := by
  unfold processRow at h
  dsimp only at h
  split at h
  · -- date-header row: the reminder list is unchanged
    simp only [Option.some.injEq] at h
    rw [← h]
    exact hinv
  · split at h
    · -- no time token: continuation or silent drop
      split at h
      · -- no previous reminder
        simp only [Option.some.injEq] at h
        rw [← h]
        exact hinv
      · -- append to the last reminder's text; its time is unchanged
        rename_i last hlast
        simp only [Option.some.injEq] at h
        rw [← h]
        intro r hr
        rcases List.mem_append.mp hr with hr | hr
        · exact hinv r ((List.dropLast_sublist st.2).subset hr)
        · simp only [List.mem_singleton] at hr
          subst hr
          exact hinv last (List.mem_of_mem_getLast? hlast)
    · -- a time token was found
      rename_i hts
      rcases rowScan_time row with he | hshape
      · exact absurd he hts
      rcases normalizeTime_shape _ hshape with ⟨nt0, hnt0, hh0⟩
      rw [hnt0] at h
      dsimp only at h
      split at h
      · simp only [Option.some.injEq] at h
        rw [← h]
        intro r hr
        rcases List.mem_append.mp hr with hr | hr
        · exact hinv r hr
        · simp only [List.mem_singleton] at hr
          subst hr
          exact hh0
      · split at h
        · simp only [Option.some.injEq] at h
          rw [← h]
          intro r hr
          rcases List.mem_append.mp hr with hr | hr
          · exact hinv r hr
          · simp only [List.mem_singleton] at hr
            subst hr
            exact hh0
        · simp only [Option.some.injEq] at h
          rw [← h]
          exact hinv

theorem parseRows_time_inv (iconYs : List ℕ) (ocrYs : List ℚ) :
    ∀ (rows : List (List OCRBox)) (st stB : String × List Reminder),
      (∀ r ∈ st.2, isHHMM r.time = true) →
      List.foldlM (processRow iconYs ocrYs) st rows = some stB →
      ∀ r ∈ stB.2, isHHMM r.time = true
  | [], st, stB, hinv, h => by
    rw [List.foldlM_nil] at h
    have hst : st = stB := by
      injection h
    rw [← hst]
    exact hinv
  | row :: rest, st, stB, hinv, h => by
    rw [List.foldlM_cons] at h
    cases h1 : processRow iconYs ocrYs st row with
    | none =>
      rw [h1] at h
      exact Option.noConfusion h
    | some st1 =>
      rw [h1] at h
      rw [show ((some st1 >>= fun s => List.foldlM (processRow iconYs ocrYs) s rest)
          = List.foldlM (processRow iconYs ocrYs) st1 rest) from rfl] at h
      exact parseRows_time_inv iconYs ocrYs rest st1 stB
        (processRow_time_inv iconYs ocrYs st row st1 hinv h1) h

/-- C4: every reminder produced by `parse_frame` has a time matching
`\d{2}:\d{2}` (two zero-padded digits, a colon, two digits), and the
normalization examples hold: `"9:05"` becomes `"09:05"` and `"13.19"`
becomes `"13:19"`. -/
theorem parseFrame_time_invariant :
    (∀ (boxes : List OCRBox) (frameGray : List (List ℕ)) (w h : ℕ)
      (rs : List Reminder), parseFrame boxes frameGray w h = some rs →
      ∀ r ∈ rs, isHHMM r.time = true) ∧
    normalizeTime "9:05" = some "09:05" ∧ normalizeTime "13.19" = some "13:19" := by
  refine ⟨?_, by decide, by decide⟩
  intro boxes frameGray w h rs hp r hr
  unfold parseFrame at hp
  dsimp only at hp
  split at hp
  · simp only [Option.some.injEq] at hp
    rw [← hp] at hr
    simp at hr
  · split at hp
    · simp only [Option.some.injEq] at hp
      rw [← hp] at hr
      simp at hr
    · cases hf : List.foldlM (processRow (detectRepeatIconsPixel frameGray)
          ((List.filter (fun b => isRepeatIconOcr b w) (filterContentBoxes boxes h)).map
            OCRBox.yCenter)) ("", [])
          (groupIntoRows (List.filter (fun b => !isRepeatIconOcr b w)
            (filterContentBoxes boxes h))) with
      | none =>
        rw [hf] at hp
        exact Option.noConfusion hp
      | some stf =>
        rw [hf] at hp
        have hp2 : some stf.2 = some rs := hp
        have hps : stf.2 = rs := by
          injection hp2
        have := parseRows_time_inv _ _ _ _ _ (by simp) hf
        rw [← hps] at hr
        exact this r hr

theorem parseFrame_time_invariant_witness :
    parseFrame
      [⟨"Thursday 13 Feb", 0.9, 100, 100, 300, 120⟩,
       ⟨"13:19 valentines day", 0.8, 100, 200, 400, 220⟩,
       ⟨"O", 0.5, 900, 200, 920, 220⟩,
       ⟨"more text", 0.7, 100, 300, 300, 320⟩] [] 1000 800 =
      some [⟨"Thursday 13 Feb", "13:19", "valentines day\nmore text", true, 4/5⟩] ∧
    isHHMM (Reminder.time ⟨"Thursday 13 Feb", "13:19", "valentines day\nmore text",
      true, 4/5⟩) = true := by
  refine ⟨by decide, ?_⟩
  exact parseFrame_time_invariant.1
    [⟨"Thursday 13 Feb", 0.9, 100, 100, 300, 120⟩,
     ⟨"13:19 valentines day", 0.8, 100, 200, 400, 220⟩,
     ⟨"O", 0.5, 900, 200, 920, 220⟩,
     ⟨"more text", 0.7, 100, 300, 300, 320⟩] [] 1000 800
    [⟨"Thursday 13 Feb", "13:19", "valentines day\nmore text", true, 4/5⟩]
    (by decide)
    ⟨"Thursday 13 Feb", "13:19", "valentines day\nmore text", true, 4/5⟩
    (by decide)

/-! ## Continuation rows (C6, C10) -/

theorem rowScanFold_none (boxes : List OCRBox) :
    ∀ acc : String × List String × List ℚ, acc.1 = "" →
      (∀ b ∈ boxes, extractTimeToken b.text = none) →
      (boxes.foldl rowScanStep acc).1 = "" := by
  induction boxes with
  | nil => exact fun acc h _ => h
  | cons b rest ih =>
    intro acc ha hb
    rw [List.foldl_cons]
    refine ih _ ?_ (fun x hx => hb x (List.mem_cons_of_mem b hx))
    unfold rowScanStep
    rw [if_pos ha, hb b (List.mem_cons_self b rest)]
    exact ha

theorem rowScan_none (row : List OCRBox)
    (h : ∀ b ∈ row, extractTimeToken b.text = none) : (rowScan row).1 = "" :=
  rowScanFold_none row ("", [], []) rfl h

/-- C6: a row in which no box yields a leading time token, and which is not a
date header, never signals an error and never creates a new reminder: the row
loop returns `some` of the same state except that the row's joined text,
preceded by a newline, is appended onto the text of the immediately preceding
reminder. -/
theorem processRow_continuation (iconYs : List ℕ) (ocrYs : List ℚ)
    (d : String) (rs : List Reminder) (row : List OCRBox)
    (hdr : isDateHeader (rowFullText row) = false)
    (htime : ∀ b ∈ row, extractTimeToken b.text = none)
    (hne : rs ≠ []) :
    processRow iconYs ocrYs (d, rs) row =
      some (d, rs.dropLast ++
        [{ rs.getLast hne with
            text := (rs.getLast hne).text ++ "\n" ++ rowFullText row }]) := by
  have hts : (rowScan row).1 = "" := rowScan_none row htime
  unfold processRow
  dsimp only
  rw [if_neg (by simp [hdr]), if_pos hts, List.getLast?_eq_getLast rs hne]

theorem processRow_continuation_witness :
    processRow [] [] ("Thursday 13 Feb", [⟨"Thursday 13 Feb", "09:00", "x", false, 1⟩])
      [⟨"hello there", 0.9, 100, 100, 300, 120⟩] =
      some ("Thursday 13 Feb",
        [⟨"Thursday 13 Feb", "09:00", "x\nhello there", false, 1⟩]) := by
  rw [processRow_continuation [] [] "Thursday 13 Feb"
    [⟨"Thursday 13 Feb", "09:00", "x", false, 1⟩]
    [⟨"hello there", 0.9, 100, 100, 300, 120⟩]
    (by decide) (by decide) (by decide)]
  decide

/-- C10: a row with no time token arriving before any reminder has been
emitted in the current frame is silently discarded: the state is returned
unchanged and no error is signalled. -/
theorem processRow_discard_before_first (iconYs : List ℕ) (ocrYs : List ℚ)
    (d : String) (row : List OCRBox)
    (hdr : isDateHeader (rowFullText row) = false)
    (htime : ∀ b ∈ row, extractTimeToken b.text = none) :
    processRow iconYs ocrYs (d, []) row = some (d, []) := by
  have hts : (rowScan row).1 = "" := rowScan_none row htime
  unfold processRow
  dsimp only
  rw [if_neg (by simp [hdr]), if_pos hts]
  rfl

theorem processRow_discard_before_first_witness :
    processRow [] [] ("", []) [⟨"hello there", 0.9, 100, 100, 300, 120⟩] =
      some ("", []) :=
  processRow_discard_before_first [] [] ""
    [⟨"hello there", 0.9, 100, 100, 300, 120⟩] (by decide) (by decide)

/-! ## Single-stable-run behavior of the frame extractor (C1) -/

theorem extractStep_none (st : ExtractState) (f : Frame)
    (hprev : st.prevCropped = none) :
    extractStep st f = { st with
      frameBuffer := st.frameBuffer ++ [(st.frameIdx, f)]
      prevCropped := some (cropCompareRegion f)
      frameIdx := st.frameIdx + 1 } := by
  unfold extractStep
  rw [hprev]

theorem extractStep_stable_first (st : ExtractState) (pf f : Frame)
    (hprev : st.prevCropped = some (cropCompareRegion pf))
    (hst : stablePair pf f = true) (hc0 : st.stableCount = 0) :
    extractStep st f = { st with
      stableCount := 1
      stableStartIdx := st.frameIdx - 1
      frameBuffer := [(st.frameIdx, f)]
      prevCropped := some (cropCompareRegion f)
      frameIdx := st.frameIdx + 1 } := by
  unfold extractStep
  rw [hprev]
  dsimp only
  rw [show diffBelow (cropCompareRegion pf) (cropCompareRegion f) = stablePair pf f from rfl,
    hst, if_pos rfl, if_pos hc0]

theorem extractStep_stable_next (st : ExtractState) (pf f : Frame)
    (hprev : st.prevCropped = some (cropCompareRegion pf))
    (hst : stablePair pf f = true) (hcn : st.stableCount ≠ 0) :
    extractStep st f = { st with
      stableCount := st.stableCount + 1
      frameBuffer := st.frameBuffer ++ [(st.frameIdx, f)]
      prevCropped := some (cropCompareRegion f)
      frameIdx := st.frameIdx + 1 } := by
  unfold extractStep
  rw [hprev]
  dsimp only
  rw [show diffBelow (cropCompareRegion pf) (cropCompareRegion f) = stablePair pf f from rfl,
    hst, if_pos rfl, if_neg hcn]

theorem extractStep_unstable_short (st : ExtractState) (pf f : Frame)
    (hprev : st.prevCropped = some (cropCompareRegion pf))
    (hst : stablePair pf f = false) (hshort : st.stableCount < STABILITY_WINDOW) :
    extractStep st f = { st with
      savedFrames := st.savedFrames
      stableCount := 0
      captured := false
      frameBuffer := []
      prevCropped := some (cropCompareRegion f)
      frameIdx := st.frameIdx + 1 } := by
  unfold extractStep
  rw [hprev]
  dsimp only
  rw [show diffBelow (cropCompareRegion pf) (cropCompareRegion f) = stablePair pf f from rfl,
    hst]
  rw [if_neg (by simp), if_neg (by
    intro hc
    exact absurd hc.1 (by omega)), List.append_nil]

theorem extractStep_unstable_capture (st : ExtractState) (pf f : Frame)
    (hprev : st.prevCropped = some (cropCompareRegion pf))
    (hst : stablePair pf f = false)
    (hcnt : STABILITY_WINDOW ≤ st.stableCount) (hcap : st.captured = false) :
    extractStep st f = { st with
      savedFrames := st.savedFrames ++ (captureFromStable st.frameBuffer).toList
      stableCount := 0
      captured := false
      frameBuffer := []
      prevCropped := some (cropCompareRegion f)
      frameIdx := st.frameIdx + 1 } := by
  unfold extractStep
  rw [hprev]
  dsimp only
  rw [show diffBelow (cropCompareRegion pf) (cropCompareRegion f) = stablePair pf f from rfl,
    hst]
  rw [if_neg (by simp), if_pos ⟨hcnt, hcap⟩]

theorem foldl_unstable : ∀ (l : List Frame) (st : ExtractState) (pf : Frame),
    st.prevCropped = some (cropCompareRegion pf) → st.stableCount = 0 →
    st.captured = false →
    chainB (fun x y => !stablePair x y) pf l = true →
    (l.foldl extractStep st).stableCount = 0 ∧
    (l.foldl extractStep st).captured = false ∧
    (l.foldl extractStep st).savedFrames = st.savedFrames ∧
    (l.foldl extractStep st).prevCropped = some (cropCompareRegion (l.getLastD pf)) ∧
    (l.foldl extractStep st).frameIdx = st.frameIdx + l.length
  | [], st, pf, hprev, hc0, hcap, _ => by
    rw [List.foldl_nil, List.getLastD_nil]
    exact ⟨hc0, hcap, rfl, hprev, rfl⟩
  | f :: rest, st, pf, hprev, hc0, hcap, hchain => by
    simp only [chainB, Bool.and_eq_true, Bool.not_eq_true'] at hchain
    rw [List.foldl_cons,
      extractStep_unstable_short st pf f hprev hchain.1 (by
        rw [hc0]
        decide)]
    have ih := foldl_unstable rest
      { st with
        savedFrames := st.savedFrames
        stableCount := 0
        captured := false
        frameBuffer := []
        prevCropped := some (cropCompareRegion f)
        frameIdx := st.frameIdx + 1 } f rfl rfl rfl hchain.2
    refine ⟨ih.1, ih.2.1, ?_, ?_, ?_⟩
    · rw [ih.2.2.1]
    · rw [ih.2.2.2.1, List.getLastD_cons]
    · rw [ih.2.2.2.2]
      simp only [List.length_cons]
      omega

theorem foldl_stable : ∀ (l : List Frame) (st : ExtractState) (pf : Frame),
    st.prevCropped = some (cropCompareRegion pf) → st.stableCount ≠ 0 →
    chainB (fun x y => stablePair x y) pf l = true →
    l.foldl extractStep st = { st with
      stableCount := st.stableCount + l.length
      frameBuffer := st.frameBuffer ++ List.enumFrom st.frameIdx l
      prevCropped := some (cropCompareRegion (l.getLastD pf))
      frameIdx := st.frameIdx + l.length }
  | [], st, pf, hprev, _, _ => by
    rw [List.foldl_nil, List.getLastD_nil, ← hprev]
    simp [List.enumFrom]
  | f :: rest, st, pf, hprev, hcn, hchain => by
    simp only [chainB, Bool.and_eq_true] at hchain
    rw [List.foldl_cons, extractStep_stable_next st pf f hprev hchain.1 hcn]
    rw [foldl_stable rest
      { st with
        stableCount := st.stableCount + 1
        frameBuffer := st.frameBuffer ++ [(st.frameIdx, f)]
        prevCropped := some (cropCompareRegion f)
        frameIdx := st.frameIdx + 1 } f rfl (by simp) hchain.2]
    simp only [List.getLastD_cons, List.length_cons, List.enumFrom,
      List.append_assoc, List.singleton_append]
    congr 1 <;> omega

theorem phaseA (pre : List Frame) (r0 : Frame)
    (hpre : listChainB (fun x y => !stablePair x y) (pre ++ [r0]) = true) :
    ((pre ++ [r0]).foldl extractStep extractInit).stableCount = 0 ∧
    ((pre ++ [r0]).foldl extractStep extractInit).captured = false ∧
    ((pre ++ [r0]).foldl extractStep extractInit).savedFrames = [] ∧
    ((pre ++ [r0]).foldl extractStep extractInit).prevCropped
      = some (cropCompareRegion r0) ∧
    ((pre ++ [r0]).foldl extractStep extractInit).frameIdx = pre.length + 1 := by
  cases pre with
  | nil =>
    rw [List.nil_append, List.foldl_cons, List.foldl_nil,
      extractStep_none extractInit r0 rfl]
    exact ⟨rfl, rfl, rfl, rfl, rfl⟩
  | cons p0 ptail =>
    have hchain : chainB (fun x y => !stablePair x y) p0 (ptail ++ [r0]) = true := by
      simpa only [listChainB, List.cons_append] using hpre
    rw [List.cons_append, List.foldl_cons, extractStep_none extractInit p0 rfl]
    have ih := foldl_unstable (ptail ++ [r0])
      { extractInit with
        frameBuffer := extractInit.frameBuffer ++ [(extractInit.frameIdx, p0)]
        prevCropped := some (cropCompareRegion p0)
        frameIdx := extractInit.frameIdx + 1 } p0 rfl rfl rfl hchain
    refine ⟨ih.1, ih.2.1, ih.2.2.1, ?_, ?_⟩
    · rw [ih.2.2.2.1, List.getLastD_concat]
    · rw [ih.2.2.2.2]
      simp only [List.length_append, List.length_cons, List.length_nil, extractInit]
      omega

theorem phaseB (st : ExtractState) (r0 r1 : Frame) (rtail : List Frame)
    (hprev : st.prevCropped = some (cropCompareRegion r0))
    (hc0 : st.stableCount = 0)
    (hchain : chainB (fun x y => stablePair x y) r0 (r1 :: rtail) = true) :
    (r1 :: rtail).foldl extractStep st = { st with
      stableCount := 1 + rtail.length
      stableStartIdx := st.frameIdx - 1
      frameBuffer := List.enumFrom st.frameIdx (r1 :: rtail)
      prevCropped := some (cropCompareRegion (rtail.getLastD r1))
      frameIdx := st.frameIdx + (1 + rtail.length) } := by
  simp only [chainB, Bool.and_eq_true] at hchain
  rw [List.foldl_cons, extractStep_stable_first st r0 r1 hprev hchain.1 hc0]
  rw [foldl_stable rtail
    { st with
      stableCount := 1
      stableStartIdx := st.frameIdx - 1
      frameBuffer := [(st.frameIdx, r1)]
      prevCropped := some (cropCompareRegion r1)
      frameIdx := st.frameIdx + 1 } r1 rfl (by simp) hchain.2]
  simp only [List.enumFrom, List.singleton_append]
  congr 1
  omega

theorem captureFromStable_long (buffer : List (ℕ × Frame))
    (h : 2 * STABILITY_SKIP_FRAMES < buffer.length) :
    captureFromStable buffer = buffer[buffer.length / 2]? := by
  simp only [STABILITY_SKIP_FRAMES] at h
  simp only [captureFromStable, STABILITY_SKIP_FRAMES]
  have hlen2 : (List.take (buffer.length - 3 - 3) (List.drop 3 buffer)).length
      = buffer.length - 2 * 3 := by
    simp only [List.length_take, List.length_drop]
    omega
  rw [hlen2, if_neg (by omega)]
  congr 1
  omega

theorem captureFromStable_enumFrom (n : ℕ) (f0 : Frame) (fs : List Frame)
    (h : 2 * STABILITY_SKIP_FRAMES < fs.length + 1) :
    captureFromStable (List.enumFrom n (f0 :: fs))
      = some (n + (fs.length + 1) / 2, (f0 :: fs).getD ((fs.length + 1) / 2) []) := by
  have hlen : (List.enumFrom n (f0 :: fs)).length = fs.length + 1 := by
    rw [List.enumFrom_length, List.length_cons]
  have hm : (fs.length + 1) / 2 < (f0 :: fs).length := by
    simp only [List.length_cons]
    omega
  rw [captureFromStable_long _ (by rw [hlen]; exact h), hlen,
    List.getElem?_enumFrom n (f0 :: fs) ((fs.length + 1) / 2),
    List.getElem?_eq_getElem hm, Option.map_some', List.getD_eq_getElem _ _ hm]

/-- All-dark test frame: 20 rows of one zero pixel. -/
def darkFrame : Frame := List.replicate 20 [0]

/-- All-bright test frame: 20 rows of one 255 pixel. -/
def brightFrame : Frame := List.replicate 20 [255]

/-- C1 (amended: the stable run must have length at least `min_run + 1`, not
`min_run`, because `stable_count` counts adjacent stable pairs, one fewer than
the frames of the run): for every frame sequence `pre ++ run ++ suf` whose only
stable adjacencies are those inside `run`, with `STABILITY_WINDOW + 1 ≤
run.length`, `extract_frames` emits exactly one representative frame — the
frame of `run` at offset `1 + (run.length - 1) / 2` — and that offset lies
within the trimmed middle region of the run (at least `STABILITY_SKIP_FRAMES`
away from each end of the run). -/
theorem extract_frames_single_run (pre run suf : List Frame)
    (hL : STABILITY_WINDOW + 1 ≤ run.length)
    (hpre : listChainB (fun x y => !stablePair x y) (pre ++ run.take 1) = true)
    (hrun : listChainB (fun x y => stablePair x y) run = true)
    (hsuf : listChainB (fun x y => !stablePair x y) (run.getLastD [] :: suf) = true) :
    extractFrames (pre ++ run ++ suf)
      = [(pre.length + 1 + (run.length - 1) / 2,
          run.getD (1 + (run.length - 1) / 2) [])] ∧
    STABILITY_SKIP_FRAMES ≤ 1 + (run.length - 1) / 2 ∧
    1 + (run.length - 1) / 2 + STABILITY_SKIP_FRAMES ≤ run.length - 1 := by
  rcases run with _ | ⟨r0, run'⟩
  · simp only [List.length_nil, STABILITY_WINDOW] at hL
    omega
  rcases run' with _ | ⟨r1, rrest⟩
  · simp only [List.length_cons, List.length_nil, STABILITY_WINDOW] at hL
    omega
  have h9 : 9 ≤ rrest.length := by
    simp only [List.length_cons, STABILITY_WINDOW] at hL
    omega
  have hsuf' : chainB (fun x y => !stablePair x y) (rrest.getLastD r1) suf = true := by
    simp only [listChainB, List.getLastD_cons] at hsuf
    exact hsuf
  refine ⟨?_, ?_, ?_⟩
  · simp only [extractFrames]
    rw [show pre ++ (r0 :: r1 :: rrest) ++ suf
        = ((pre ++ [r0]) ++ (r1 :: rrest)) ++ suf from by simp]
    rw [List.foldl_append, List.foldl_append]
    obtain ⟨hsc1, hcap1, hsav1, hpc1, hfi1⟩ := phaseA pre r0 hpre
    have hB := phaseB (List.foldl extractStep extractInit (pre ++ [r0])) r0 r1 rrest
      hpc1 hsc1 hrun
    generalize hG : List.foldl extractStep extractInit (pre ++ [r0]) = st1
      at hsc1 hcap1 hsav1 hpc1 hfi1 hB ⊢
    obtain ⟨pc, sc, ssi, cap, sav, fb, fi⟩ := st1
    dsimp only at hsc1 hcap1 hsav1 hpc1 hfi1 hB ⊢
    subst hsc1 hcap1 hsav1 hpc1 hfi1
    rw [hB]
    rcases suf with _ | ⟨s0, stl⟩
    · rw [List.foldl_nil]
      dsimp only [List.nil_append]
      rw [if_pos ⟨by simp only [STABILITY_WINDOW]; omega, rfl⟩,
        captureFromStable_enumFrom (pre.length + 1) r1 rrest
          (by simp only [STABILITY_SKIP_FRAMES]; omega),
        Option.toList_some]
      simp only [List.length_cons, List.cons.injEq, Prod.mk.injEq, and_true]
      refine ⟨by omega, ?_⟩
      have hidx : 1 + (rrest.length + 1 + 1 - 1) / 2 = (rrest.length + 1) / 2 + 1 := by
        omega
      rw [hidx, List.getD_cons_succ]
    · rw [List.foldl_cons]
      simp only [chainB, Bool.and_eq_true, Bool.not_eq_true'] at hsuf'
      rw [extractStep_unstable_capture
          ⟨some (cropCompareRegion (rrest.getLastD r1)), 1 + rrest.length,
           pre.length + 1 - 1, false, [],
           List.enumFrom (pre.length + 1) (r1 :: rrest),
           pre.length + 1 + (1 + rrest.length)⟩
          (rrest.getLastD r1) s0 rfl hsuf'.1
          (by show STABILITY_WINDOW ≤ 1 + rrest.length
              simp only [STABILITY_WINDOW]
              omega)
          rfl]
      dsimp only [List.nil_append]
      have hC := foldl_unstable stl
        ⟨some (cropCompareRegion s0), 0, pre.length + 1 - 1, false,
         (captureFromStable (List.enumFrom (pre.length + 1) (r1 :: rrest))).toList,
         [], pre.length + 1 + (1 + rrest.length) + 1⟩
        s0 rfl rfl rfl hsuf'.2
      rw [hC.1, hC.2.1, hC.2.2.1]
      rw [if_neg (by
        intro hcon
        exact absurd hcon.1 (by decide))]
      rw [List.append_nil]
      dsimp only
      rw [captureFromStable_enumFrom (pre.length + 1) r1 rrest
          (by simp only [STABILITY_SKIP_FRAMES]; omega), Option.toList_some]
      simp only [List.length_cons, List.cons.injEq, Prod.mk.injEq, and_true]
      refine ⟨by omega, ?_⟩
      have hidx : 1 + (rrest.length + 1 + 1 - 1) / 2 = (rrest.length + 1) / 2 + 1 := by
        omega
      rw [hidx, List.getD_cons_succ]
  · simp only [List.length_cons, STABILITY_SKIP_FRAMES]
    omega
  · simp only [List.length_cons, STABILITY_SKIP_FRAMES]
    omega

/-- C1 counterexample to the unamended claim: a video that is one single
stable run of exactly `min_run = STABILITY_WINDOW` frames (ten identical dark
frames, every adjacent pair stable) makes `extract_frames` emit nothing: the
loop counts stable *pairs*, so a run of `L` frames reaches `stable_count =
L - 1 = 9 < STABILITY_WINDOW` and the final flush does not fire. -/
theorem extract_frames_min_run_cex :
    listChainB (fun x y => stablePair x y) (List.replicate 10 darkFrame) = true ∧
    (List.replicate 10 darkFrame).length = STABILITY_WINDOW ∧
    extractFrames (List.replicate 10 darkFrame) = [] := by
  decide

theorem extract_frames_single_run_witness :
    STABILITY_WINDOW + 1 ≤ (List.replicate 11 darkFrame).length ∧
    extractFrames ([brightFrame] ++ List.replicate 11 darkFrame ++ [brightFrame, darkFrame])
      = [(([brightFrame] : List Frame).length + 1
            + ((List.replicate 11 darkFrame).length - 1) / 2,
          (List.replicate 11 darkFrame).getD
            (1 + ((List.replicate 11 darkFrame).length - 1) / 2) [])] :=
  ⟨by decide,
   (extract_frames_single_run [brightFrame] (List.replicate 11 darkFrame)
      [brightFrame, darkFrame] (by decide) (by decide) (by decide) (by decide)).1⟩
